import Mathlib

/-!
Verification of the adamas library: an arbitrary-precision accumulator
(`src/accum.rs`) and a mixed-radix field-encoding layer (`src/data.rs`).

The accumulator is a `Vec<u64>` of words, least significant first
(`Digit = u64`, `DoubleDigit = u128`).  We embed it as `List Nat` whose
entries are word values; every store into the vector goes through the
same `% 2^64` chop as the source's `chop_digits`, and `u128` intermediate
arithmetic is embedded as plain `Nat` arithmetic (no intermediate in the
source can exceed `2^128`, as proved by the word-bound lemmas below).
Where the source performs a wrapping cast or a masked shift, the
embedding applies the corresponding `% 2^w` explicitly (release-build,
i.e. two's-complement wrapping, semantics); places where a debug build
would instead panic on overflow are called out in the doc comments.
-/

/-- Number of bits in one accumulator word (`Digit::BITS` for `Digit = u64`). -/
def digitBits : Nat := 64

/-- The base of the accumulator's positional representation: `2^64`. -/
def digitBase : Nat := 2 ^ 64

namespace Accumulator

/-- `chop_digits`: split a double word into `(least, most)` significant words.
For inputs below `2^128` (all call sites), the source's shift/mask code
computes exactly division and remainder by `2^64`. -/
def chop_digits (x : Nat) : Nat × Nat := (x % digitBase, x / digitBase)

/-- `fuse_digits`: combine `(least, most)` significant words into a double word. -/
def fuse_digits (lsd msd : Nat) : Nat := lsd + msd * digitBase

/-- The numeric value represented by a word list (index 0 least significant). -/
def value : List Nat → Nat
  | [] => 0
  | d :: l => d + digitBase * value l

/-- Representation invariant: every stored word fits in a `u64`. -/
def WordsLt (l : List Nat) : Prop := ∀ x ∈ l, x < digitBase

/-- Trimmed invariant from the spec's data model: the most significant
word, when present, is nonzero (the empty list represents zero). -/
def Trimmed (l : List Nat) : Prop := l.getLast? ≠ some 0

/-- The carry loop of `add_at_place`, acting on the suffix of the word
vector that starts at the target place: while the carry is nonzero,
either push it past the end or add it into the current word and carry
the high half onward. -/
def addCarry (c : Nat) : List Nat → List Nat
  | [] => if c = 0 then [] else [c % digitBase]
  | d :: l =>
    if c = 0 then d :: l
    else (c + d) % digitBase :: addCarry ((c + d) / digitBase) l

/-- The walk of `add_at_place` down to `place`, appending zero words while
the vector is shorter than the place, then running the carry loop there. -/
def addAtPlaceGo (v : Nat) : List Nat → Nat → List Nat
  | l, 0 => addCarry v l
  | [], p + 1 => 0 :: addAtPlaceGo v [] p
  | d :: l, p + 1 => d :: addAtPlaceGo v l p

/-- `Accumulator::add_at_place`: add `v * digitBase^place`; no-op when `v = 0`. -/
def add_at_place (data : List Nat) (v place : Nat) : List Nat :=
  if v = 0 then data else addAtPlaceGo v data place

/-- `Accumulator::add`: add a single word at the least significant place. -/
def add (data : List Nat) (v : Nat) : List Nat :=
  add_at_place data v 0

/-- The loop of `Accumulator::mul`, iterating indices most significant to
least: `mulFrom v n data` processes indices `n-1, n-2, ..., 0`.  At index
`ii` it chops `data[ii] * v`, folds the high half upward via
`add_at_place (high) (ii+1)`, then overwrites `data[ii]` with the low half. -/
def mulFrom (v : Nat) : Nat → List Nat → List Nat
  | 0, data => data
  | n + 1, data =>
    let r := data.getD n 0 * v
    let data1 := add_at_place data (r / digitBase) (n + 1)
    mulFrom v n (data1.set n (r % digitBase))

/-- `Accumulator::mul`: multiply the whole number by one word. -/
def mul (data : List Nat) (v : Nat) : List Nat :=
  mulFrom v data.length data

/-- Drop the most significant word if it is zero (the trim performed at
the end of `div` and `shr`). -/
def trimOne (l : List Nat) : List Nat :=
  if l.getLast? = some 0 then l.dropLast else l

/-- The long-division loop of `Accumulator::div`, most significant word to
least: at index `ii` the double-width dividend is `fuse (data[ii]) rem`;
its quotient word replaces `data[ii]` and its remainder is carried down. -/
def divLoop (den : Nat) : Nat → List Nat → Nat → List Nat × Nat
  | 0, data, r => (data, r)
  | n + 1, data, r =>
    let num := fuse_digits (data.getD n 0) r
    let data1 := data.set n ((num / den) % digitBase)
    divLoop den n data1 ((num % den) % digitBase)

/-- `Accumulator::div`: divide by one word, returning the new state and the
remainder; `none` models the fatal division-by-zero panic (raised before
any mutation). -/
def div (data : List Nat) (v : Nat) : Option (List Nat × Nat) :=
  if v = 0 then none
  else
    let p := divLoop v data.length data 0
    some (trimOne p.1, p.2)

/-- The loop of `Accumulator::shl`, least significant word to most, carrying
the shifted-out high half upward; returns the rewritten list and the final
carry word. -/
def shlLoop (s : Nat) : List Nat → Nat → List Nat × Nat
  | [], c => ([], c)
  | d :: l, c =>
    let r := d * 2 ^ s + c
    let p := shlLoop s l (r / digitBase)
    ((r % digitBase) :: p.1, p.2)

/-- `Accumulator::shl`: multiply by `2^s`; `none` models the fatal panic
when `s` exceeds the word bit width. -/
def shl (data : List Nat) (s : Nat) : Option (List Nat) :=
  if s > digitBits then none
  else
    let p := shlLoop s data 0
    some (if p.2 > 0 then p.1 ++ [p.2] else p.1)

/-- The loop of `Accumulator::shr`, most significant word to least: at index
`ii` the word is widened into the high half of a double word, shifted right,
combined with the carry from the word above, and chopped; the low half
becomes the next carry and the high half is stored back. -/
def shrLoop (s : Nat) : Nat → List Nat → Nat → List Nat × Nat
  | 0, data, c => (data, c)
  | n + 1, data, c =>
    let r := fuse_digits 0 (data.getD n 0) / 2 ^ s + c * digitBase
    shrLoop s n (data.set n (r / digitBase)) (r % digitBase)

/-- Whether the final native shift of `Accumulator::shr`, namely
`carry >> (Digit::BITS - shift)` on a `u64`, has an overflowing shift
amount (`≥ 64`).  Given the earlier guard `shift ≤ 64`, this happens
exactly at `shift = 0`; a debug build panics there, a release build
masks the shift amount modulo 64. -/
def shrFinalShiftOverflows (s : Nat) : Bool := decide (digitBits ≤ digitBits - s)

/-- `Accumulator::shr`: divide by `2^s`, returning the new state and the
shifted-out bits; `none` models the fatal panic when `s` exceeds the word
bit width.  The final `carry >> (64 - s)` is embedded with the release
build's masked shift amount `(64 - s) % 64` (for `s = 0` a debug build
panics instead; see `shrFinalShiftOverflows`). -/
def shr (data : List Nat) (s : Nat) : Option (List Nat × Nat) :=
  if s > digitBits then none
  else
    let p := shrLoop s data.length data 0
    some (trimOne p.1, p.2 / 2 ^ ((digitBits - s) % 64))

/-- The canonical fixed-width little-endian digit list of a number; used to
characterize the lists produced by the long-division and right-shift loops. -/
def toDigits : Nat → Nat → List Nat
  | 0, _ => []
  | n + 1, x => x % digitBase :: toDigits n (x / digitBase)

/-- Accumulator states reachable from `Accumulator::new` through the
mutating operations, restricted to nonzero multipliers (multiplying by
zero breaks the trimmed invariant; see the C4 counterexample).  Word
arguments carry the `u64` bound imposed by the source's types. -/
inductive Reachable : List Nat → Prop where
  | new : Reachable []
  | add (l : List Nat) (v : Nat) : Reachable l → v < digitBase →
      Reachable (add l v)
  | add_at_place (l : List Nat) (v p : Nat) : Reachable l → v < digitBase →
      Reachable (add_at_place l v p)
  | mul (l : List Nat) (v : Nat) : Reachable l → v < digitBase → v ≠ 0 →
      Reachable (mul l v)
  | div (l l1 : List Nat) (v r : Nat) : Reachable l → v < digitBase →
      div l v = some (l1, r) → Reachable l1
  | shl (l l1 : List Nat) (s : Nat) : Reachable l →
      shl l s = some l1 → Reachable l1
  | shr (l l1 : List Nat) (s r : Nat) : Reachable l →
      shr l s = some (l1, r) → Reachable l1

end Accumulator

/-! ## The field-encoding layer (`src/data.rs`)

`SignedDigit = i64`; signed machine integers are embedded as `Int` with
explicit two's-complement wrapping (`wrapI64`) at every operation of the
source, and `as Digit` casts as reinterpretation modulo `2^64`
(`u64OfI64`).  This is the release-build semantics; where a debug build
would panic on a wrapping intermediate, a dedicated overflow predicate
records it. -/

/-- `SignedDigit::MIN` (`i64::MIN`). -/
def i64Min : Int := -(2 ^ 63)

/-- `SignedDigit::MAX` (`i64::MAX`). -/
def i64Max : Int := 2 ^ 63 - 1

/-- Two's-complement wrapping of an integer into the `i64` range. -/
def wrapI64 (x : Int) : Int := (x + 2 ^ 63) % 2 ^ 64 - 2 ^ 63

/-- Reinterpretation of an `i64` value as a `u64` (an `as Digit` cast). -/
def u64OfI64 (x : Int) : Nat := (x % 2 ^ 64).toNat

/-- Whether an `i64` subtraction `a - b` overflows (debug builds panic). -/
def i64SubOverflows (a b : Int) : Bool := decide (a - b < i64Min ∨ i64Max < a - b)

/-- Whether an `i64` addition `a + b` overflows (debug builds panic). -/
def i64AddOverflows (a b : Int) : Bool := decide (a + b < i64Min ∨ i64Max < a + b)

/-- The `DatumSpec<T>` trait: permutation count, fallible encode to a code
word, fallible decode back.  `Result<Digit, &str>` is embedded as
`Except String Nat`. -/
structure DatumSpec (T : Type) where
  permutations : Nat
  encode : T → Except String Nat
  decode : Nat → Except String T

/-- The `Bool` field specification (`impl DatumSpec<bool> for Bool`). -/
def BoolSpec : DatumSpec Bool where
  permutations := 2
  encode b := .ok (if b then 1 else 0)
  decode n :=
    match n with
    | 0 => .ok false
    | 1 => .ok true
    | _ => .error "Could not decode the given value as boolean"

/-- The `IntRange` field specification's data: signed bounds. -/
structure IntRange where
  min : Int
  max : Int

/-- `IntRange::new`: `none` models the two construction-time panics
(`min` below `SignedDigit::MIN + 1`, or `min ≥ max`). -/
def IntRange.new (min max : Int) : Option IntRange :=
  if min < i64Min + 1 then none
  else if min ≥ max then none
  else some ⟨min, max⟩

/-- `IntRange::new_full`: the widest accepted range. -/
def IntRange.newFull : IntRange := ⟨i64Min + 1, i64Max⟩

/-- `IntRange::permutations`: `(self.max - self.min + 1) as Digit`, with
each `i64` operation wrapping and the final cast reinterpreting as `u64`. -/
def IntRange.permutations (r : IntRange) : Nat :=
  u64OfI64 (wrapI64 (wrapI64 (r.max - r.min) + 1))

/-- Whether the signed intermediates of `IntRange::permutations` overflow
(debug builds panic there). -/
def IntRange.permutationsOverflow (r : IntRange) : Bool :=
  i64SubOverflows r.max r.min || i64AddOverflows (wrapI64 (r.max - r.min)) 1

/-- `IntRange::encode`: range check, then `(input - self.min) as Digit`. -/
def IntRange.encode (r : IntRange) (v : Int) : Except String Nat :=
  if v < r.min ∨ v > r.max then .error "Value to encode is outside allowed range"
  else .ok (u64OfI64 (wrapI64 (v - r.min)))

/-- Whether the signed intermediate of `IntRange::encode` overflows
(debug builds panic there). -/
def IntRange.encodeOverflows (r : IntRange) (v : Int) : Bool :=
  i64SubOverflows v r.min

/-- `IntRange::decode`: bound check against `permutations`, then
`(input as SignedDoubleDigit + min as SignedDoubleDigit) as SignedDigit`
(the `i128` sum cannot overflow; the final cast wraps to `i64`). -/
def IntRange.decode (r : IntRange) (n : Nat) : Except String Int :=
  if n ≥ r.permutations then
    .error "Cannot decode data, input larger than possible permutations"
  else .ok (wrapI64 ((n : Int) + r.min))

/-- The `DatumSpec<SignedDigit>` instance of `IntRange`. -/
def IntRange.spec (r : IntRange) : DatumSpec Int :=
  ⟨r.permutations, r.encode, r.decode⟩

/-- Validity of an `IntRange`: the constructor checks (`min` above the
reserved sentinel, `min < max`) together with the `i64` type bound on `max`. -/
def IntRange.Valid (r : IntRange) : Prop :=
  i64Min + 1 ≤ r.min ∧ r.min < r.max ∧ r.max ≤ i64Max

/-- The `CharSet` field specification's data: the ordered character list.
The inverse `HashMap` is represented by index lookup, which agrees with it
on every set accepted by construction (no duplicates). -/
structure CharSet where
  charset : List Char

/-- `CharSet::new`: `none` models the construction-time panic on a
duplicate character (the loop inserts each character keyed to its index,
panicking when the key is already present). -/
def CharSet.new (s : List Char) : Option CharSet :=
  if s.Nodup then some ⟨s⟩ else none

/-- `CharSet::permutations`: the number of characters. -/
def CharSet.permutations (cs : CharSet) : Nat := cs.charset.length

/-- `CharSet::encode`: look up the character's index, domain error if absent. -/
def CharSet.encode (cs : CharSet) (c : Char) : Except String Nat :=
  if c ∈ cs.charset then .ok (cs.charset.indexOf c)
  else .error "Could not encode character not defined in the character set"

/-- `CharSet::decode`: index into the ordered character list, domain error
when out of range. -/
def CharSet.decode (cs : CharSet) (n : Nat) : Except String Char :=
  if h : n < cs.charset.length then .ok (cs.charset.get ⟨n, h⟩)
  else .error "Could not decode value to a character"

/-- The `DatumSpec<char>` instance of `CharSet`. -/
def CharSet.spec (cs : CharSet) : DatumSpec Char :=
  ⟨cs.permutations, cs.encode, cs.decode⟩

/-- `SequenceLength`: fixed total size or variable with a maximum. -/
inductive SequenceLength where
  | Fixed (n : Nat)
  | Variable (n : Nat)

/-- `Sequencer`: a field specification together with a length discipline. -/
structure Sequencer (T : Type) where
  spec : DatumSpec T
  length : SequenceLength

/-! Sequencer operations.  The source's fatal conditions (an `unwrap` of an
encode/decode error, an out-of-bounds `values[ii]`, an oversized variable
sequence, a division by zero inside `div`) abort compression or
decompression; they are embedded as `Except (List Nat)` whose error value
is the accumulator state at the moment of the abort — the state the
caller's accumulator is left in, since a panic does not roll it back. -/

/-- The loop of `compress_fixed`: `length` iterations, each doing
`accum.mul(permutations)` then `accum.add(encode(values[ii]).unwrap())`.
Running out of values models the out-of-bounds index panic (which in the
source fires after the `mul` of that iteration). -/
def compressFixedLoop {T : Type} (spec : DatumSpec T) (perm : Nat) :
    Nat → List T → List Nat → Except (List Nat) (List Nat)
  | 0, _, acc => .ok acc
  | _ + 1, [], acc => .error (Accumulator.mul acc perm)
  | n + 1, v :: vs, acc =>
    let acc1 := Accumulator.mul acc perm
    match spec.encode v with
    | .error _ => .error acc1
    | .ok c => compressFixedLoop spec perm n vs (Accumulator.add acc1 c)

/-- `Sequencer::compress_fixed`. -/
def compressFixed {T : Type} (spec : DatumSpec T) (values : List T)
    (acc : List Nat) (length : Nat) : Except (List Nat) (List Nat) :=
  compressFixedLoop spec spec.permutations length values acc

/-- The per-value loop of `compress_variable`: for each value,
`mul(radix)` then `add(encode(value).unwrap() + 1)` (the `+ 1` is a `u64`
addition, hence taken modulo `2^64`). -/
def compressVariableLoop {T : Type} (spec : DatumSpec T) (radix : Nat) :
    List T → List Nat → Except (List Nat) (List Nat)
  | [], acc => .ok acc
  | v :: vs, acc =>
    let acc1 := Accumulator.mul acc radix
    match spec.encode v with
    | .error _ => .error acc1
    | .ok c => compressVariableLoop spec radix vs (Accumulator.add acc1 ((c + 1) % digitBase))

/-- `Sequencer::compress_variable`: radix is `permutations() + 1` (a `u64`
addition, modelled modulo `2^64`); an oversized list panics before any
mutation; then one `mul(radix)` writes the zero terminator **before** the
per-value loop, and the loop follows. -/
def compressVariable {T : Type} (spec : DatumSpec T) (values : List T)
    (acc : List Nat) (maxLength : Nat) : Except (List Nat) (List Nat) :=
  let radix := (spec.permutations + 1) % digitBase
  if values.length > maxLength then .error acc
  else compressVariableLoop spec radix values (Accumulator.mul acc radix)

/-- `Sequencer::compress`. -/
def Sequencer.compress {T : Type} (sq : Sequencer T) (values : List T)
    (acc : List Nat) : Except (List Nat) (List Nat) :=
  match sq.length with
  | .Fixed n => compressFixed sq.spec values acc n
  | .Variable n => compressVariable sq.spec values acc n

/-- The loop of `decompress_fixed`: `length` times, `div(permutations)`
and decode the remainder, pushing decoded values in extraction order. -/
def decompressFixedLoop {T : Type} (spec : DatumSpec T) (perm : Nat) :
    Nat → List Nat → Except (List Nat) (List T × List Nat)
  | 0, acc => .ok ([], acc)
  | n + 1, acc =>
    match Accumulator.div acc perm with
    | none => .error acc
    | some p =>
      match spec.decode p.2 with
      | .error _ => .error p.1
      | .ok v =>
        (decompressFixedLoop spec perm n p.1).map fun q => (v :: q.1, q.2)

/-- `Sequencer::decompress_fixed`: run the loop, then reverse the buffer. -/
def decompressFixed {T : Type} (spec : DatumSpec T) (acc : List Nat)
    (length : Nat) : Except (List Nat) (List T × List Nat) :=
  (decompressFixedLoop spec spec.permutations length acc).map fun q => (q.1.reverse, q.2)

/-- The loop of `decompress_variable`: at most `length` iterations of
`div(radix)`; a zero remainder ends the sequence, otherwise the remainder
minus one is decoded. -/
def decompressVariableLoop {T : Type} (spec : DatumSpec T) (radix : Nat) :
    Nat → List Nat → Except (List Nat) (List T × List Nat)
  | 0, acc => .ok ([], acc)
  | n + 1, acc =>
    match Accumulator.div acc radix with
    | none => .error acc
    | some p =>
      if p.2 = 0 then .ok ([], p.1)
      else
        match spec.decode (p.2 - 1) with
        | .error _ => .error p.1
        | .ok v =>
          (decompressVariableLoop spec radix n p.1).map fun q => (v :: q.1, q.2)

/-- `Sequencer::decompress_variable`: radix `permutations() + 1`, loop,
then reverse the buffer. -/
def decompressVariable {T : Type} (spec : DatumSpec T) (acc : List Nat)
    (length : Nat) : Except (List Nat) (List T × List Nat) :=
  let radix := (spec.permutations + 1) % digitBase
  (decompressVariableLoop spec radix length acc).map fun q => (q.1.reverse, q.2)

/-- `Sequencer::decompress`. -/
def Sequencer.decompress {T : Type} (sq : Sequencer T) (acc : List Nat) :
    Except (List Nat) (List T × List Nat) :=
  match sq.length with
  | .Fixed n => decompressFixed sq.spec acc n
  | .Variable n => decompressVariable sq.spec acc n

/-- Modelled from the spec: the claim C3 sentence describes
`compress_variable` as running the per-value loop first and performing the
terminator `mul(radix)` after it; this definition follows that wording, to
be compared with `compressVariable`, which follows the source (terminator
multiply before the loop). -/
def compressVariableSpecOrder {T : Type} (spec : DatumSpec T) (values : List T)
    (acc : List Nat) (maxLength : Nat) : Except (List Nat) (List Nat) :=
  let radix := (spec.permutations + 1) % digitBase
  if values.length > maxLength then .error acc
  else (compressVariableLoop spec radix values acc).map fun a => Accumulator.mul a radix

/-- A field specification whose decode always reports a domain error; a
test fixture exercising the decode-unwrap path of `decompress_fixed`. -/
def decodeFailSpec : DatumSpec Unit where
  permutations := 5
  encode _ := .ok 0
  decode _ := .error "domain error"

/-- The contract a field specification keeps over a value (spec section 4.2):
encoding yields a code below `permutations` and decoding it restores the
value.  The round-trip claims quantify over specifications through it. -/
def DatumSpec.Encodes {T : Type} (spec : DatumSpec T) (v : T) (c : Nat) : Prop :=
  spec.encode v = .ok c ∧ c < spec.permutations ∧ spec.decode c = .ok v

/-! ## Decidability helpers for concrete witnesses -/

instance (l : List Nat) : Decidable (Accumulator.WordsLt l) :=
  List.decidableBAll _ l

instance (l : List Nat) : Decidable (Accumulator.Trimmed l) := by
  unfold Accumulator.Trimmed
  infer_instance

instance (r : IntRange) : Decidable r.Valid := by
  unfold IntRange.Valid
  infer_instance

/-! ## Arithmetic lemmas for the accumulator representation -/

namespace Accumulator

theorem digitBase_pos : 0 < digitBase := by norm_num [digitBase]

theorem one_lt_digitBase : 1 < digitBase := by norm_num [digitBase]

theorem value_nil : value [] = 0 := rfl

theorem value_cons (d : Nat) (l : List Nat) :
    value (d :: l) = d + digitBase * value l := rfl

theorem value_append (a b : List Nat) :
    value (a ++ b) = value a + digitBase ^ a.length * value b := by
  induction a with
  | nil => simp [value]
  | cons d l ih =>
      simp only [List.cons_append, value_cons, ih, List.length_cons, pow_succ]
      ring

theorem value_replicate_zero (n : Nat) : value (List.replicate n 0) = 0 := by
  induction n with
  | zero => rfl
  | succ n ih => simp [List.replicate_succ, value_cons, ih]

theorem wordsLt_nil : WordsLt [] := by intro x hx; cases hx

theorem wordsLt_cons {d : Nat} {l : List Nat} :
    WordsLt (d :: l) ↔ d < digitBase ∧ WordsLt l := by
  simp [WordsLt, or_imp, forall_and]

theorem wordsLt_append {a b : List Nat} :
    WordsLt (a ++ b) ↔ WordsLt a ∧ WordsLt b := by
  simp [WordsLt, or_imp, forall_and]

theorem value_lt (l : List Nat) (h : WordsLt l) : value l < digitBase ^ l.length := by
  induction l with
  | nil => simp [value]
  | cons d t ih =>
      rw [wordsLt_cons] at h
      have ht := ih h.2
      have h1 : d + digitBase * value t < digitBase * (value t + 1) := by
        have := h.1; ring_nf; omega
      have h2 : digitBase * (value t + 1) ≤ digitBase * digitBase ^ t.length :=
        Nat.mul_le_mul_left _ (by omega)
      simp only [value_cons, List.length_cons, pow_succ]
      calc d + digitBase * value t < digitBase * (value t + 1) := h1
        _ ≤ digitBase * digitBase ^ t.length := h2
        _ = digitBase ^ t.length * digitBase := Nat.mul_comm ..

theorem getD_canonical (l : List Nat) (h : WordsLt l) (i : Nat) :
    l.getD i 0 = value l / digitBase ^ i % digitBase := by
  induction l generalizing i with
  | nil => simp [value, Nat.zero_div]
  | cons d t ih =>
      rw [wordsLt_cons] at h
      cases i with
      | zero =>
          simp only [List.getD_cons_zero, pow_zero, Nat.div_one, value_cons]
          rw [Nat.add_mul_mod_self_left, Nat.mod_eq_of_lt h.1]
      | succ i =>
          have hd : (d + digitBase * value t) / digitBase = value t := by
            rw [Nat.add_mul_div_left _ _ digitBase_pos, Nat.div_eq_of_lt h.1, Nat.zero_add]
          simp only [List.getD_cons_succ, value_cons, pow_succ, ih h.2 i]
          rw [Nat.mul_comm (digitBase ^ i) digitBase, ← Nat.div_div_eq_div_mul, hd]

theorem getLast?_eq_getD (l : List Nat) (h : l ≠ []) :
    l.getLast? = some (l.getD (l.length - 1) 0) := by
  induction l with
  | nil => exact absurd rfl h
  | cons d t ih =>
      cases t with
      | nil => rfl
      | cons e u =>
          rw [List.getLast?_cons_cons, ih (by simp)]
          simp

theorem value_div_top_lt (l : List Nat) (h : WordsLt l) (hne : l ≠ []) :
    value l / digitBase ^ (l.length - 1) < digitBase := by
  have hlt : value l < digitBase ^ l.length := value_lt l h
  have hlen : 0 < l.length := List.length_pos.mpr hne
  have he : l.length - 1 + 1 = l.length := by omega
  rw [Nat.div_lt_iff_lt_mul (Nat.pos_pow_of_pos _ digitBase_pos)]
  calc value l < digitBase ^ l.length := hlt
    _ = digitBase ^ (l.length - 1 + 1) := by rw [he]
    _ = digitBase * digitBase ^ (l.length - 1) := by rw [pow_succ]; ring

theorem le_value_of_trimmed (l : List Nat) (h : WordsLt l) (hne : l ≠ [])
    (ht : Trimmed l) : digitBase ^ (l.length - 1) ≤ value l := by
  have htop := getD_canonical l h (l.length - 1)
  have hdiv := value_div_top_lt l h hne
  have ht2 : l.getD (l.length - 1) 0 ≠ 0 := by
    intro hz
    exact ht (by rw [getLast?_eq_getD l hne, hz])
  rw [htop, Nat.mod_eq_of_lt hdiv] at ht2
  have h1 : 1 ≤ value l / digitBase ^ (l.length - 1) := Nat.pos_of_ne_zero ht2
  calc digitBase ^ (l.length - 1) = 1 * digitBase ^ (l.length - 1) := by ring
    _ ≤ value l / digitBase ^ (l.length - 1) * digitBase ^ (l.length - 1) :=
        Nat.mul_le_mul_right _ h1
    _ ≤ value l := Nat.div_mul_le_self ..

theorem trimmed_of_le_value (l : List Nat) (h : WordsLt l)
    (hv : digitBase ^ (l.length - 1) ≤ value l) : Trimmed l := by
  intro hc
  have hne : l ≠ [] := by
    intro he; subst he
    simp [value] at hv
  rw [getLast?_eq_getD l hne, getD_canonical l h] at hc
  have hdiv := value_div_top_lt l h hne
  have h1 : 1 ≤ value l / digitBase ^ (l.length - 1) :=
    (Nat.one_le_div_iff (Nat.pos_pow_of_pos _ digitBase_pos)).mpr hv
  have := Option.some.inj hc
  rw [Nat.mod_eq_of_lt hdiv] at this
  omega

theorem value_eq_zero_iff (l : List Nat) (h : WordsLt l) (ht : Trimmed l) :
    value l = 0 ↔ l = [] := by
  constructor
  · intro hz
    by_contra hne
    have := le_value_of_trimmed l h hne ht
    have hpos : 0 < digitBase ^ (l.length - 1) := Nat.pos_pow_of_pos _ digitBase_pos
    omega
  · intro he; subst he; rfl

theorem trimOne_value (l : List Nat) : value (trimOne l) = value l := by
  unfold trimOne
  split
  · next hl =>
      have hsplit : l.dropLast ++ [0] = l := List.dropLast_append_getLast? 0 hl
      conv_rhs => rw [← hsplit]
      rw [value_append]
      simp [value]
  · rfl

theorem trimOne_wordsLt (l : List Nat) (h : WordsLt l) : WordsLt (trimOne l) := by
  unfold trimOne
  split
  · intro x hx
    exact h x (List.dropLast_subset l hx)
  · exact h

theorem trimOne_trimmed (l : List Nat) (h : WordsLt l)
    (hv : l.length ≤ 1 ∨ digitBase ^ (l.length - 2) ≤ value l) :
    Trimmed (trimOne l) := by
  unfold trimOne
  split
  · next hl =>
      have hsplit : l.dropLast ++ [0] = l := List.dropLast_append_getLast? 0 hl
      have hlen : l.length = l.dropLast.length + 1 := by
        conv_lhs => rw [← hsplit]
        simp
      have hw : WordsLt l.dropLast := fun x hx => h x (List.dropLast_subset l hx)
      have hval : value l.dropLast = value l := by
        conv_rhs => rw [← hsplit]
        rw [value_append]; simp [value]
      rcases hv with hv | hv
      · have h0 : l.dropLast.length = 0 := by omega
        rw [List.length_eq_zero] at h0
        rw [h0]; intro hc; simp at hc
      · apply trimmed_of_le_value _ hw
        rw [hval]
        have h2 : l.dropLast.length - 1 = l.length - 2 := by omega
        rw [h2]; exact hv
  · next hl => exact hl

theorem div_base_lt {x : Nat} (h : x < digitBase * digitBase) :
    x / digitBase < digitBase :=
  (Nat.div_lt_iff_lt_mul digitBase_pos).mpr h

theorem addCarry_zero (l : List Nat) : addCarry 0 l = l := by
  cases l <;> simp [addCarry]

theorem addCarry_ne_nil (c : Nat) (l : List Nat) (h : l ≠ []) :
    addCarry c l ≠ [] := by
  cases l with
  | nil => exact absurd rfl h
  | cons d t => by_cases hc : c = 0 <;> simp [addCarry, hc]

theorem getLast?_cons_of_ne_nil (a : Nat) (l : List Nat) (h : l ≠ []) :
    (a :: l).getLast? = l.getLast? := by
  cases l with
  | nil => exact absurd rfl h
  | cons b t => exact List.getLast?_cons_cons ..

theorem addCarry_value (c : Nat) (l : List Nat) (hc : c < digitBase)
    (hl : WordsLt l) : value (addCarry c l) = c + value l := by
  induction l generalizing c with
  | nil =>
      by_cases hc0 : c = 0 <;> simp [addCarry, hc0, value, Nat.mod_eq_of_lt hc]
  | cons d t ih =>
      rw [wordsLt_cons] at hl
      by_cases hc0 : c = 0
      · simp [addCarry, hc0]
      · have hcd : c + d < digitBase * digitBase := by
          have h2 : 2 ≤ digitBase := one_lt_digitBase
          have : 2 * digitBase ≤ digitBase * digitBase := Nat.mul_le_mul_right _ h2
          omega
        rw [addCarry, if_neg hc0, value_cons, ih _ (div_base_lt hcd) hl.2, value_cons,
          Nat.mul_add, ← Nat.add_assoc, Nat.mod_add_div]
        ring

theorem addCarry_wordsLt (c : Nat) (l : List Nat) (hc : c < digitBase)
    (hl : WordsLt l) : WordsLt (addCarry c l) := by
  induction l generalizing c with
  | nil =>
      by_cases hc0 : c = 0 <;>
        simp [addCarry, hc0, wordsLt_nil, wordsLt_cons, Nat.mod_lt _ digitBase_pos]
  | cons d t ih =>
      rw [wordsLt_cons] at hl
      by_cases hc0 : c = 0
      · rw [addCarry, if_pos hc0, wordsLt_cons]; exact ⟨hl.1, hl.2⟩
      · have hcd : c + d < digitBase * digitBase := by
          have h2 : 2 ≤ digitBase := one_lt_digitBase
          have : 2 * digitBase ≤ digitBase * digitBase := Nat.mul_le_mul_right _ h2
          omega
        rw [addCarry, if_neg hc0, wordsLt_cons]
        exact ⟨Nat.mod_lt _ digitBase_pos, ih _ (div_base_lt hcd) hl.2⟩

theorem addCarry_length (c : Nat) (l : List Nat) :
    l.length ≤ (addCarry c l).length := by
  induction l generalizing c with
  | nil => simp
  | cons d t ih =>
      by_cases hc0 : c = 0
      · simp [addCarry, hc0]
      · rw [addCarry, if_neg hc0]
        simpa using ih ((c + d) / digitBase)

theorem addCarry_trimmed (c : Nat) (l : List Nat) (hc : c < digitBase)
    (hl : WordsLt l) (ht : Trimmed l) : Trimmed (addCarry c l) := by
  induction l generalizing c with
  | nil =>
      by_cases hc0 : c = 0
      · simpa [addCarry, hc0] using ht
      · simp only [addCarry, if_neg hc0]
        simp only [Trimmed, List.getLast?_singleton]
        rw [Nat.mod_eq_of_lt hc]
        intro hx
        exact hc0 (Option.some.inj hx)
  | cons d t ih =>
      by_cases hc0 : c = 0
      · rw [addCarry, if_pos hc0]; exact ht
      · rw [wordsLt_cons] at hl
        rw [addCarry, if_neg hc0]
        cases t with
        | nil =>
            have hcd : c + d < digitBase * digitBase := by
              have h2 : 2 ≤ digitBase := one_lt_digitBase
              have : 2 * digitBase ≤ digitBase * digitBase := Nat.mul_le_mul_right _ h2
              omega
            by_cases hq : (c + d) / digitBase = 0
            · rw [hq, addCarry_zero]
              have hlt : c + d < digitBase := by
                by_contra hge
                push_neg at hge
                have : 1 ≤ (c + d) / digitBase :=
                  (Nat.one_le_div_iff digitBase_pos).mpr hge
                omega
              simp only [Trimmed, List.getLast?_singleton]
              rw [Nat.mod_eq_of_lt hlt]
              intro hx
              have := Option.some.inj hx
              omega
            · simp only [addCarry, if_neg hq]
              intro hx
              rw [List.getLast?_cons_cons, List.getLast?_singleton] at hx
              have hqB : (c + d) / digitBase < digitBase := div_base_lt hcd
              rw [Nat.mod_eq_of_lt hqB] at hx
              exact hq (Option.some.inj hx)
        | cons e u =>
            have h2 : Trimmed (e :: u) := by
              intro hx
              exact ht (by rw [List.getLast?_cons_cons]; exact hx)
            have hcd : c + d < digitBase * digitBase := by
              have h2b : 2 ≤ digitBase := one_lt_digitBase
              have : 2 * digitBase ≤ digitBase * digitBase := Nat.mul_le_mul_right _ h2b
              omega
            have h3 := ih ((c + d) / digitBase) (div_base_lt hcd) hl.2 h2
            intro hx
            apply h3
            rw [← hx]
            exact (getLast?_cons_of_ne_nil _ _
              (addCarry_ne_nil _ _ (by simp))).symm

theorem addAtPlaceGo_eq (v : Nat) (l : List Nat) (p : Nat) :
    addAtPlaceGo v l p
      = l.take p ++ List.replicate (p - l.length) 0 ++ addCarry v (l.drop p) := by
  induction p generalizing l with
  | zero => simp [addAtPlaceGo]
  | succ p ih =>
      cases l with
      | nil =>
          show 0 :: addAtPlaceGo v [] p = _
          rw [ih]
          simp [List.replicate_succ]
      | cons d t =>
          show d :: addAtPlaceGo v t p = _
          rw [ih]
          simp only [List.take_succ_cons, List.drop_succ_cons, List.length_cons,
            Nat.succ_sub_succ, List.cons_append]

theorem add_at_place_value (l : List Nat) (v p : Nat) (hv : v < digitBase)
    (hl : WordsLt l) :
    value (add_at_place l v p) = value l + v * digitBase ^ p := by
  unfold add_at_place
  by_cases hv0 : v = 0
  · rw [if_pos hv0, hv0]; ring
  · rw [if_neg hv0, addAtPlaceGo_eq]
    have hdropw : WordsLt (l.drop p) := fun x hx => hl x (List.drop_subset p l hx)
    rw [value_append, value_append, value_replicate_zero,
      addCarry_value v _ hv hdropw, List.length_append, List.length_take,
      List.length_replicate]
    rcases le_or_lt p l.length with hpl | hpl
    · have hmin : min p l.length = p := Nat.min_eq_left hpl
      have hsub : p - l.length = 0 := by omega
      have hval : value l = value (l.take p) + digitBase ^ p * value (l.drop p) := by
        conv_lhs => rw [← List.take_append_drop p l]
        rw [value_append, List.length_take, hmin]
      rw [hmin, hsub, hval]
      ring
    · have hmin : min p l.length = l.length := Nat.min_eq_right (by omega)
      have htake : l.take p = l := List.take_of_length_le (by omega)
      have hdrop : l.drop p = [] := List.drop_eq_nil_of_le (by omega)
      rw [hmin, htake, hdrop, value_nil]
      have hexp : l.length + (p - l.length) = p := by omega
      rw [hexp]
      ring

theorem add_at_place_wordsLt (l : List Nat) (v p : Nat) (hv : v < digitBase)
    (hl : WordsLt l) : WordsLt (add_at_place l v p) := by
  unfold add_at_place
  by_cases hv0 : v = 0
  · rw [if_pos hv0]; exact hl
  · rw [if_neg hv0, addAtPlaceGo_eq, wordsLt_append, wordsLt_append]
    refine ⟨⟨fun x hx => hl x (List.take_subset p l hx), ?_⟩, ?_⟩
    · intro x hx
      rw [List.eq_of_mem_replicate hx]
      exact digitBase_pos
    · exact addCarry_wordsLt v _ hv fun x hx => hl x (List.drop_subset p l hx)

theorem add_at_place_length (l : List Nat) (v p : Nat) :
    l.length ≤ (add_at_place l v p).length := by
  unfold add_at_place
  by_cases hv0 : v = 0
  · rw [if_pos hv0]
  · rw [if_neg hv0, addAtPlaceGo_eq]
    have := addCarry_length v (l.drop p)
    simp only [List.length_append, List.length_take, List.length_replicate,
      List.length_drop] at *
    omega

theorem add_at_place_trimmed (l : List Nat) (v p : Nat) (hv : v < digitBase)
    (hl : WordsLt l) (ht : Trimmed l) : Trimmed (add_at_place l v p) := by
  unfold add_at_place
  by_cases hv0 : v = 0
  · rw [if_pos hv0]; exact ht
  · rw [if_neg hv0, addAtPlaceGo_eq]
    rcases le_or_lt l.length p with hpl | hpl
    · have hdrop : l.drop p = [] := List.drop_eq_nil_of_le hpl
      rw [hdrop]
      show Trimmed (l.take p ++ List.replicate (p - l.length) 0
        ++ (if v = 0 then [] else [v % digitBase]))
      rw [if_neg hv0]
      intro hx
      rw [List.getLast?_concat] at hx
      rw [Nat.mod_eq_of_lt hv] at hx
      exact hv0 (Option.some.inj hx)
    · have hdne : l.drop p ≠ [] := by
        intro he
        have := List.drop_eq_nil_iff.mp he
        omega
      have hdw : WordsLt (l.drop p) := fun x hx => hl x (List.drop_subset p l hx)
      have hdt : Trimmed (l.drop p) := by
        intro hx
        rw [List.getLast?_drop, if_neg (by omega)] at hx
        exact ht hx
      intro hx
      rw [List.getLast?_append_of_ne_nil _ (addCarry_ne_nil v _ hdne)] at hx
      exact addCarry_trimmed v _ hv hdw hdt hx

theorem take_add_at_place (l : List Nat) (v p n : Nat) (hp : p ≤ l.length)
    (hn : n ≤ p) : (add_at_place l v p).take n = l.take n := by
  unfold add_at_place
  by_cases hv0 : v = 0
  · rw [if_pos hv0]
  · rw [if_neg hv0, addAtPlaceGo_eq]
    have hsub : p - l.length = 0 := by omega
    rw [hsub, List.replicate_zero, List.append_nil]
    have hlen : n ≤ (l.take p).length := by
      rw [List.length_take]; omega
    rw [List.take_append_of_le_length hlen, List.take_take, Nat.min_eq_left hn]

theorem drop_append_of_length (a b : List Nat) (n : Nat) (h : a.length = n) :
    (a ++ b).drop n = b := by
  subst h
  exact List.drop_left a b

theorem drop_add_at_place (l : List Nat) (v p : Nat) (hp : p ≤ l.length) :
    (add_at_place l v p).drop p = addCarry v (l.drop p) := by
  unfold add_at_place
  by_cases hv0 : v = 0
  · rw [if_pos hv0, hv0, addCarry_zero]
  · rw [if_neg hv0, addAtPlaceGo_eq]
    have hsub : p - l.length = 0 := by omega
    rw [hsub, List.replicate_zero, List.append_nil]
    exact drop_append_of_length _ _ _ (by rw [List.length_take]; omega)

theorem add_value (l : List Nat) (v : Nat) (hv : v < digitBase) (hl : WordsLt l) :
    value (add l v) = value l + v := by
  unfold add
  rw [add_at_place_value l v 0 hv hl, pow_zero, Nat.mul_one]

theorem add_wordsLt (l : List Nat) (v : Nat) (hv : v < digitBase)
    (hl : WordsLt l) : WordsLt (add l v) :=
  add_at_place_wordsLt l v 0 hv hl

theorem add_trimmed (l : List Nat) (v : Nat) (hv : v < digitBase)
    (hl : WordsLt l) (ht : Trimmed l) : Trimmed (add l v) :=
  add_at_place_trimmed l v 0 hv hl ht

theorem value_take_succ (l : List Nat) (n : Nat) (hn : n < l.length) :
    value (l.take (n + 1)) = value (l.take n) + digitBase ^ n * l.getD n 0 := by
  rw [List.take_succ, List.getElem?_eq_getElem hn, value_append, List.length_take,
    Nat.min_eq_left (le_of_lt hn), List.getD_eq_getElem l 0 hn]
  simp [value]

theorem trimmed_set (l : List Nat) (n x : Nat) (h : n + 1 < l.length)
    (ht : Trimmed l) : Trimmed (l.set n x) := by
  intro hx
  apply ht
  have hn : n < l.length := by omega
  have hdne : l.drop (n + 1) ≠ [] := by
    rw [Ne, List.drop_eq_nil_iff]; omega
  rw [List.set_eq_take_cons_drop x hn,
    List.getLast?_append_of_ne_nil _ (by simp),
    getLast?_cons_of_ne_nil _ _ hdne, List.getLast?_drop, if_neg (by omega)] at hx
  exact hx

theorem trimmed_set_last (l : List Nat) (m x : Nat) (h : l.length = m + 1)
    (hx : x ≠ 0) : Trimmed (l.set m x) := by
  intro hc
  have hm : m < l.length := by omega
  have hdrop : l.drop (m + 1) = [] := List.drop_eq_nil_of_le (by omega)
  rw [List.set_eq_take_cons_drop x hm, hdrop] at hc
  rw [List.getLast?_concat] at hc
  exact hx (Option.some.inj hc)

theorem mulFrom_spec (v : Nat) (hv : v < digitBase) :
    ∀ (n : Nat) (data : List Nat), n ≤ data.length → WordsLt data →
      value (mulFrom v n data)
          = v * value (data.take n) + digitBase ^ n * value (data.drop n)
        ∧ WordsLt (mulFrom v n data)
        ∧ data.length ≤ (mulFrom v n data).length := by
  intro n
  induction n with
  | zero =>
      intro data _ hw
      refine ⟨?_, hw, le_refl _⟩
      simp [mulFrom, value]
  | succ n ih =>
      intro data hn hw
      have hnlt : n < data.length := hn
      have hdlt : data.getD n 0 < digitBase := by
        rw [List.getD_eq_getElem data 0 hnlt]
        exact hw _ (List.getElem_mem hnlt)
      have hrlt : data.getD n 0 * v < digitBase * digitBase :=
        mul_lt_mul'' hdlt hv (Nat.zero_le _) (Nat.zero_le _)
      have hmsb : data.getD n 0 * v / digitBase < digitBase := div_base_lt hrlt
      have hlsb : data.getD n 0 * v % digitBase < digitBase :=
        Nat.mod_lt _ digitBase_pos
      set data1 := add_at_place data (data.getD n 0 * v / digitBase) (n + 1)
        with hdata1
      have hlen1 : data.length ≤ data1.length := add_at_place_length ..
      have hw1 : WordsLt data1 := add_at_place_wordsLt _ _ _ hmsb hw
      have htake1 : data1.take n = data.take n :=
        take_add_at_place data _ (n + 1) n hn (by omega)
      have hdrop1 : data1.drop (n + 1)
          = addCarry (data.getD n 0 * v / digitBase) (data.drop (n + 1)) :=
        drop_add_at_place data _ (n + 1) hn
      set data2 := data1.set n (data.getD n 0 * v % digitBase) with hdata2
      have hn1 : n < data1.length := by omega
      have hset : data2 = data1.take n
          ++ data.getD n 0 * v % digitBase :: data1.drop (n + 1) :=
        List.set_eq_take_cons_drop _ hn1
      have hw2 : WordsLt data2 := by
        intro x hx
        rcases List.mem_or_eq_of_mem_set hx with hmem | heq
        · exact hw1 x hmem
        · rw [heq]; exact hlsb
      have hlen2 : data2.length = data1.length := List.length_set ..
      obtain ⟨ihval, ihw, ihlen⟩ := ih data2 (by omega) hw2
      have hunf : mulFrom v (n + 1) data = mulFrom v n data2 := rfl
      rw [hunf]
      refine ⟨?_, ihw, by omega⟩
      rw [ihval]
      have htake2 : data2.take n = data.take n := by
        rw [hset, List.take_append_of_le_length (by rw [List.length_take]; omega),
          List.take_take, Nat.min_self, htake1]
      have hdrop2 : data2.drop n
          = data.getD n 0 * v % digitBase :: data1.drop (n + 1) := by
        rw [hset]
        exact drop_append_of_length _ _ _ (by rw [List.length_take]; omega)
      have hdw : WordsLt (data.drop (n + 1)) :=
        fun x hx => hw x (List.drop_subset _ _ hx)
      rw [htake2, hdrop2, value_cons, hdrop1, addCarry_value _ _ hmsb hdw,
        value_take_succ data n hnlt]
      have key : data.getD n 0 * v % digitBase
          + digitBase * (data.getD n 0 * v / digitBase) = data.getD n 0 * v :=
        Nat.mod_add_div ..
      calc v * value (data.take n) + digitBase ^ n
            * (data.getD n 0 * v % digitBase
              + digitBase * (data.getD n 0 * v / digitBase
                + value (data.drop (n + 1))))
          = v * value (data.take n) + digitBase ^ n
              * (data.getD n 0 * v % digitBase
                + digitBase * (data.getD n 0 * v / digitBase))
            + digitBase ^ (n + 1) * value (data.drop (n + 1)) := by ring
        _ = v * value (data.take n) + digitBase ^ n * (data.getD n 0 * v)
            + digitBase ^ (n + 1) * value (data.drop (n + 1)) := by rw [key]
        _ = v * (value (data.take n) + digitBase ^ n * data.getD n 0)
            + digitBase ^ (n + 1) * value (data.drop (n + 1)) := by ring

theorem mul_value (l : List Nat) (v : Nat) (hv : v < digitBase)
    (hl : WordsLt l) : value (mul l v) = value l * v := by
  unfold mul
  have h := (mulFrom_spec v hv l.length l (le_refl _) hl).1
  rw [List.take_length, List.drop_length, value_nil] at h
  rw [h]; ring

theorem mul_wordsLt (l : List Nat) (v : Nat) (hv : v < digitBase)
    (hl : WordsLt l) : WordsLt (mul l v) :=
  (mulFrom_spec v hv l.length l (le_refl _) hl).2.1

theorem mulFrom_trimmed (v : Nat) (hv : v < digitBase) :
    ∀ (n : Nat) (data : List Nat), n < data.length → WordsLt data →
      Trimmed data → Trimmed (mulFrom v n data) := by
  intro n
  induction n with
  | zero => intro data _ _ ht; exact ht
  | succ n ih =>
      intro data hn hw ht
      have hnlt : n < data.length := by omega
      have hdlt : data.getD n 0 < digitBase := by
        rw [List.getD_eq_getElem data 0 hnlt]
        exact hw _ (List.getElem_mem hnlt)
      have hrlt : data.getD n 0 * v < digitBase * digitBase :=
        mul_lt_mul'' hdlt hv (Nat.zero_le _) (Nat.zero_le _)
      have hmsb : data.getD n 0 * v / digitBase < digitBase := div_base_lt hrlt
      have hlsb : data.getD n 0 * v % digitBase < digitBase :=
        Nat.mod_lt _ digitBase_pos
      set data1 := add_at_place data (data.getD n 0 * v / digitBase) (n + 1)
        with hdata1
      have hlen1 : data.length ≤ data1.length := add_at_place_length ..
      have hw1 : WordsLt data1 := add_at_place_wordsLt _ _ _ hmsb hw
      have ht1 : Trimmed data1 := add_at_place_trimmed _ _ _ hmsb hw ht
      set data2 := data1.set n (data.getD n 0 * v % digitBase) with hdata2
      have hw2 : WordsLt data2 := by
        intro x hx
        rcases List.mem_or_eq_of_mem_set hx with hmem | heq
        · exact hw1 x hmem
        · rw [heq]; exact hlsb
      have ht2 : Trimmed data2 := trimmed_set data1 n _ (by omega) ht1
      have hlen2 : data2.length = data1.length := List.length_set ..
      have hunf : mulFrom v (n + 1) data = mulFrom v n data2 := rfl
      rw [hunf]
      exact ih data2 (by omega) hw2 ht2

theorem mul_trimmed (l : List Nat) (v : Nat) (hv : v < digitBase) (hv0 : v ≠ 0)
    (hl : WordsLt l) (ht : Trimmed l) : Trimmed (mul l v) := by
  unfold mul
  cases hlen : l.length with
  | zero => exact ht
  | succ m =>
      have hmlt : m < l.length := by omega
      have hdlt : l.getD m 0 < digitBase := by
        rw [List.getD_eq_getElem l 0 hmlt]
        exact hl _ (List.getElem_mem hmlt)
      have hdne : l.getD m 0 ≠ 0 := by
        intro hz
        apply ht
        rw [getLast?_eq_getD l (by intro he; rw [he] at hlen; simp at hlen), hlen]
        simpa using congrArg some hz
      have hrne : l.getD m 0 * v ≠ 0 := Nat.mul_ne_zero hdne hv0
      have hrlt : l.getD m 0 * v < digitBase * digitBase :=
        mul_lt_mul'' hdlt hv (Nat.zero_le _) (Nat.zero_le _)
      have hmsb : l.getD m 0 * v / digitBase < digitBase := div_base_lt hrlt
      have hunf : mulFrom v (m + 1) l
          = mulFrom v m ((add_at_place l (l.getD m 0 * v / digitBase) (m + 1)).set m
              (l.getD m 0 * v % digitBase)) := rfl
      rw [hunf]
      by_cases hq : l.getD m 0 * v / digitBase = 0
      · -- no high half: the vector keeps its length and the top word
        -- becomes the (nonzero) low half of the product
        rw [hq]
        have hnop : add_at_place l 0 (m + 1) = l := by unfold add_at_place; rw [if_pos rfl]
        rw [hnop]
        have hrB : l.getD m 0 * v < digitBase := by
          by_contra hge
          push_neg at hge
          have h1 : 1 ≤ l.getD m 0 * v / digitBase :=
            (Nat.one_le_div_iff digitBase_pos).mpr hge
          omega
        have hlsbne : l.getD m 0 * v % digitBase ≠ 0 := by
          rw [Nat.mod_eq_of_lt hrB]; exact hrne
        have ht2 : Trimmed (l.set m (l.getD m 0 * v % digitBase)) :=
          trimmed_set_last l m _ hlen hlsbne
        have hw2 : WordsLt (l.set m (l.getD m 0 * v % digitBase)) := by
          intro x hx
          rcases List.mem_or_eq_of_mem_set hx with hmem | heq
          · exact hl x hmem
          · rw [heq]; exact Nat.mod_lt _ digitBase_pos
        cases m with
        | zero => exact ht2
        | succ k =>
            exact mulFrom_trimmed v hv (k + 1) _
              (by rw [List.length_set]; omega) hw2 ht2
      · -- the high half is appended as a new, nonzero top word
        have happ : add_at_place l (l.getD m 0 * v / digitBase) (m + 1)
            = l ++ [l.getD m 0 * v / digitBase] := by
          unfold add_at_place
          rw [if_neg hq, addAtPlaceGo_eq,
            List.take_of_length_le (by omega), List.drop_eq_nil_of_le (by omega)]
          show l ++ List.replicate (m + 1 - l.length) 0
              ++ (if l.getD m 0 * v / digitBase = 0 then []
                else [l.getD m 0 * v / digitBase % digitBase]) = _
          rw [if_neg hq, Nat.mod_eq_of_lt hmsb]
          have : m + 1 - l.length = 0 := by omega
          rw [this, List.replicate_zero, List.append_nil]
        rw [happ]
        have hlenapp : (l ++ [l.getD m 0 * v / digitBase]).length = m + 2 := by
          rw [List.length_append, hlen]; rfl
        have htapp : Trimmed (l ++ [l.getD m 0 * v / digitBase]) := by
          intro hc
          rw [List.getLast?_concat] at hc
          exact hq (Option.some.inj hc)
        have hwapp : WordsLt (l ++ [l.getD m 0 * v / digitBase]) := by
          rw [wordsLt_append]
          exact ⟨hl, by intro x hx; rw [List.mem_singleton] at hx; rw [hx]; exact hmsb⟩
        have ht2 : Trimmed ((l ++ [l.getD m 0 * v / digitBase]).set m
            (l.getD m 0 * v % digitBase)) :=
          trimmed_set _ m _ (by omega) htapp
        have hw2 : WordsLt ((l ++ [l.getD m 0 * v / digitBase]).set m
            (l.getD m 0 * v % digitBase)) := by
          intro x hx
          rcases List.mem_or_eq_of_mem_set hx with hmem | heq
          · exact hwapp x hmem
          · rw [heq]; exact Nat.mod_lt _ digitBase_pos
        exact mulFrom_trimmed v hv m _ (by rw [List.length_set]; omega) hw2 ht2

theorem toDigits_length (n x : Nat) : (toDigits n x).length = n := by
  induction n generalizing x with
  | zero => rfl
  | succ n ih => simp [toDigits, ih]

theorem toDigits_wordsLt (n x : Nat) : WordsLt (toDigits n x) := by
  induction n generalizing x with
  | zero => exact wordsLt_nil
  | succ n ih =>
      rw [toDigits, wordsLt_cons]
      exact ⟨Nat.mod_lt _ digitBase_pos, ih _⟩

theorem toDigits_value (n x : Nat) (h : x < digitBase ^ n) :
    value (toDigits n x) = x := by
  induction n generalizing x with
  | zero => simp at h; simp [toDigits, value, h]
  | succ n ih =>
      have hdiv : x / digitBase < digitBase ^ n := by
        rw [Nat.div_lt_iff_lt_mul digitBase_pos, ← pow_succ]
        exact h
      rw [toDigits, value_cons, ih _ hdiv, Nat.mod_add_div]

theorem toDigits_append_top (n q x : Nat) (hq : q < digitBase)
    (hx : x < digitBase ^ n) :
    toDigits (n + 1) (q * digitBase ^ n + x) = toDigits n x ++ [q] := by
  induction n generalizing x with
  | zero =>
      have hx0 : x = 0 := by simpa using hx
      subst hx0
      simp [toDigits, Nat.mod_eq_of_lt hq, Nat.div_eq_of_lt hq]
  | succ n ih =>
      have hq' : q * digitBase ^ (n + 1) = q * digitBase ^ n * digitBase := by ring
      have hb : (q * digitBase ^ (n + 1) + x) % digitBase = x % digitBase := by
        rw [hq', Nat.add_comm, Nat.add_mul_mod_self_right]
      have hd : (q * digitBase ^ (n + 1) + x) / digitBase
          = q * digitBase ^ n + x / digitBase := by
        rw [hq', Nat.add_comm, Nat.add_mul_div_right _ _ digitBase_pos, Nat.add_comm]
      have hxd : x / digitBase < digitBase ^ n := by
        rw [Nat.div_lt_iff_lt_mul digitBase_pos, ← pow_succ]
        exact hx
      show (q * digitBase ^ (n + 1) + x) % digitBase
          :: toDigits (n + 1) ((q * digitBase ^ (n + 1) + x) / digitBase)
          = (x % digitBase :: toDigits n (x / digitBase)) ++ [q]
      rw [hb, hd, ih _ hxd, List.cons_append]

theorem take_set (l : List Nat) (n x : Nat) : (l.set n x).take n = l.take n := by
  induction l generalizing n with
  | nil => rfl
  | cons d t ih =>
      cases n with
      | zero => rfl
      | succ n => simp [List.set_cons_succ, List.take_succ_cons, ih]

theorem drop_set_succ (l : List Nat) (n x : Nat) (h : n < l.length) :
    (l.set n x).drop n = x :: l.drop (n + 1) := by
  rw [List.set_eq_take_cons_drop x h]
  exact drop_append_of_length _ _ _ (by rw [List.length_take]; omega)

theorem value_take_lt (l : List Nat) (n : Nat) (hn : n ≤ l.length)
    (hw : WordsLt l) : value (l.take n) < digitBase ^ n := by
  have h := value_lt (l.take n) fun x hx => hw x (List.take_subset n l hx)
  rw [List.length_take, Nat.min_eq_left hn] at h
  exact h

theorem divLoop_spec (den : Nat) (hden : 0 < den) (hdB : den < digitBase) :
    ∀ (n : Nat) (data : List Nat) (r : Nat), n ≤ data.length → WordsLt data →
      r < den →
      divLoop den n data r
        = (toDigits n ((r * digitBase ^ n + value (data.take n)) / den)
            ++ data.drop n,
          (r * digitBase ^ n + value (data.take n)) % den) := by
  intro n
  induction n with
  | zero =>
      intro data r _ _ hr
      simp only [divLoop, toDigits, pow_zero, Nat.mul_one, List.take_zero,
        value_nil, Nat.add_zero, List.nil_append, List.drop_zero]
      rw [Nat.mod_eq_of_lt hr]
  | succ n ih =>
      intro data r hn hw hr
      have hnlt : n < data.length := hn
      have hd : data.getD n 0 < digitBase := by
        rw [List.getD_eq_getElem data 0 hnlt]
        exact hw _ (List.getElem_mem hnlt)
      have hnum : fuse_digits (data.getD n 0) r = data.getD n 0 + r * digitBase := rfl
      have hnumlt : data.getD n 0 + r * digitBase < den * digitBase := by
        have h1 : r * digitBase ≤ (den - 1) * digitBase :=
          Nat.mul_le_mul_right _ (by omega)
        have h2 : (den - 1) * digitBase + digitBase = den * digitBase := by
          have : den - 1 + 1 = den := by omega
          calc (den - 1) * digitBase + digitBase = (den - 1 + 1) * digitBase := by ring
            _ = den * digitBase := by rw [this]
        omega
      have hq : (data.getD n 0 + r * digitBase) / den < digitBase := by
        rw [Nat.div_lt_iff_lt_mul hden]
        calc data.getD n 0 + r * digitBase < den * digitBase := hnumlt
          _ = digitBase * den := Nat.mul_comm ..
      have hr1 : (data.getD n 0 + r * digitBase) % den < den := Nat.mod_lt _ hden
      have hunf : divLoop den (n + 1) data r
          = divLoop den n
              (data.set n ((fuse_digits (data.getD n 0) r / den) % digitBase))
              ((fuse_digits (data.getD n 0) r % den) % digitBase) := rfl
      rw [hunf, hnum, Nat.mod_eq_of_lt hq, Nat.mod_eq_of_lt (lt_trans hr1 hdB)]
      set q := (data.getD n 0 + r * digitBase) / den with hqdef
      set r1 := (data.getD n 0 + r * digitBase) % den with hr1def
      set data1 := data.set n q with hdata1
      have hw1 : WordsLt data1 := by
        intro x hx
        rcases List.mem_or_eq_of_mem_set hx with hmem | heq
        · exact hw x hmem
        · rw [heq]; exact hq
      have hlen1 : n ≤ data1.length := by rw [List.length_set]; omega
      rw [ih data1 r1 hlen1 hw1 hr1]
      have htake1 : data1.take n = data.take n := take_set ..
      have hdrop1 : data1.drop n = q :: data.drop (n + 1) := by
        rw [hdata1]
        exact drop_set_succ data n q hnlt
      -- relate the dividend of the remaining pass to the full dividend
      have hvt : value (data.take n) < digitBase ^ n := value_take_lt data n (by omega) hw
      have hX : r * digitBase ^ (n + 1) + value (data.take (n + 1))
          = den * (q * digitBase ^ n) + (r1 * digitBase ^ n + value (data.take n)) := by
        rw [value_take_succ data n hnlt]
        have hsplit : data.getD n 0 + r * digitBase = den * q + r1 := by
          rw [hqdef, hr1def, Nat.div_add_mod]
        calc r * digitBase ^ (n + 1)
              + (value (data.take n) + digitBase ^ n * data.getD n 0)
            = (data.getD n 0 + r * digitBase) * digitBase ^ n
              + value (data.take n) := by ring
          _ = (den * q + r1) * digitBase ^ n + value (data.take n) := by rw [hsplit]
          _ = den * (q * digitBase ^ n) + (r1 * digitBase ^ n + value (data.take n)) := by
              ring
      have hXlt : r1 * digitBase ^ n + value (data.take n) < den * digitBase ^ n := by
        have h1 : r1 * digitBase ^ n ≤ (den - 1) * digitBase ^ n :=
          Nat.mul_le_mul_right _ (by omega)
        have h2 : (den - 1) * digitBase ^ n + digitBase ^ n = den * digitBase ^ n := by
          have he : den - 1 + 1 = den := by omega
          calc (den - 1) * digitBase ^ n + digitBase ^ n
              = (den - 1 + 1) * digitBase ^ n := by ring
            _ = den * digitBase ^ n := by rw [he]
        omega
      have hmod : (r * digitBase ^ (n + 1) + value (data.take (n + 1))) % den
          = (r1 * digitBase ^ n + value (data.take n)) % den := by
        rw [hX, Nat.mul_comm den (q * digitBase ^ n),
          Nat.add_comm (q * digitBase ^ n * den), Nat.add_mul_mod_self_right]
      have hdiv : (r * digitBase ^ (n + 1) + value (data.take (n + 1))) / den
          = q * digitBase ^ n + (r1 * digitBase ^ n + value (data.take n)) / den := by
        rw [hX, Nat.mul_add_div hden]
      have hQlt : (r1 * digitBase ^ n + value (data.take n)) / den < digitBase ^ n := by
        rw [Nat.div_lt_iff_lt_mul hden]
        calc r1 * digitBase ^ n + value (data.take n) < den * digitBase ^ n := hXlt
          _ = digitBase ^ n * den := Nat.mul_comm ..
      rw [htake1, hdrop1, hmod, hdiv,
        toDigits_append_top n q _ hq hQlt, List.append_assoc, List.singleton_append]

theorem div_eq (data : List Nat) (v : Nat) (hv : 0 < v) (hvB : v < digitBase)
    (hw : WordsLt data) :
    div data v
      = some (trimOne (toDigits data.length (value data / v)), value data % v) := by
  unfold div
  rw [if_neg (by omega)]
  rw [divLoop_spec v hv hvB data.length data 0 (le_refl _) hw (by omega)]
  simp only [Nat.zero_mul, Nat.zero_add, List.take_length, List.drop_length,
    List.append_nil]

theorem div_spec (data : List Nat) (v : Nat) (hv : 0 < v) (hvB : v < digitBase)
    (hw : WordsLt data) :
    ∃ p : List Nat × Nat, div data v = some p
      ∧ value p.1 = value data / v
      ∧ p.2 = value data % v
      ∧ WordsLt p.1
      ∧ (Trimmed data → Trimmed p.1) := by
  refine ⟨_, div_eq data v hv hvB hw, ?_, rfl, ?_, ?_⟩
  · have hqlt : value data / v < digitBase ^ data.length :=
      lt_of_le_of_lt (Nat.div_le_self ..) (value_lt data hw)
    rw [trimOne_value, toDigits_value _ _ hqlt]
  · exact trimOne_wordsLt _ (toDigits_wordsLt _ _)
  · intro ht
    apply trimOne_trimmed _ (toDigits_wordsLt _ _)
    rcases le_or_lt data.length 1 with hlen | hlen
    · left; rw [toDigits_length]; exact hlen
    · right
      rw [toDigits_length]
      have hne : data ≠ [] := by
        intro he; rw [he] at hlen; simp at hlen
      have hbig := le_value_of_trimmed data hw hne ht
      have hqlt : value data / v < digitBase ^ data.length :=
        lt_of_le_of_lt (Nat.div_le_self ..) (value_lt data hw)
      rw [toDigits_value _ _ hqlt]
      have hstep : digitBase ^ (data.length - 2)
          = digitBase ^ (data.length - 1) / digitBase := by
        have he : data.length - 2 + 1 = data.length - 1 := by omega
        rw [← he, pow_succ, Nat.mul_div_cancel _ digitBase_pos]
      rw [hstep]
      calc digitBase ^ (data.length - 1) / digitBase
          ≤ digitBase ^ (data.length - 1) / v := Nat.div_le_div_left hvB.le hv
        _ ≤ value data / v := Nat.div_le_div_right hbig

theorem two_pow_le_digitBase {s : Nat} (hs : s ≤ 64) : 2 ^ s ≤ digitBase := by
  rw [digitBase]
  exact Nat.pow_le_pow_right (by norm_num) hs

theorem shlLoop_spec (s : Nat) (hs : s ≤ 64) :
    ∀ (l : List Nat) (c : Nat), WordsLt l → c < digitBase →
      value (shlLoop s l c).1 + digitBase ^ l.length * (shlLoop s l c).2
          = value l * 2 ^ s + c
        ∧ WordsLt (shlLoop s l c).1
        ∧ (shlLoop s l c).2 < digitBase
        ∧ (shlLoop s l c).1.length = l.length := by
  intro l
  induction l with
  | nil =>
      intro c _ hc
      exact ⟨by simp [shlLoop, value], wordsLt_nil, hc, rfl⟩
  | cons d t ih =>
      intro c hw hc
      rw [wordsLt_cons] at hw
      have hr2 : d * 2 ^ s + c < digitBase * digitBase := by
        have h2s : 2 ^ s ≤ digitBase := two_pow_le_digitBase hs
        have h1 : d * 2 ^ s ≤ (digitBase - 1) * digitBase :=
          Nat.mul_le_mul (by omega) h2s
        have h2 : (digitBase - 1) * digitBase + digitBase = digitBase * digitBase := by
          have he : digitBase - 1 + 1 = digitBase := by
            have := digitBase_pos; omega
          calc (digitBase - 1) * digitBase + digitBase
              = (digitBase - 1 + 1) * digitBase := by ring
            _ = digitBase * digitBase := by rw [he]
        omega
      have hcarry : (d * 2 ^ s + c) / digitBase < digitBase := div_base_lt hr2
      obtain ⟨ihval, ihw, ihc, ihlen⟩ := ih ((d * 2 ^ s + c) / digitBase) hw.2 hcarry
      have hunf : shlLoop s (d :: t) c
          = ((d * 2 ^ s + c) % digitBase
              :: (shlLoop s t ((d * 2 ^ s + c) / digitBase)).1,
            (shlLoop s t ((d * 2 ^ s + c) / digitBase)).2) := rfl
      rw [hunf]
      refine ⟨?_, ?_, ihc, by simp [ihlen]⟩
      · simp only [value_cons, List.length_cons]
        calc (d * 2 ^ s + c) % digitBase
              + digitBase * value (shlLoop s t ((d * 2 ^ s + c) / digitBase)).1
              + digitBase ^ (t.length + 1)
                * (shlLoop s t ((d * 2 ^ s + c) / digitBase)).2
            = (d * 2 ^ s + c) % digitBase + digitBase
                * (value (shlLoop s t ((d * 2 ^ s + c) / digitBase)).1
                  + digitBase ^ t.length
                    * (shlLoop s t ((d * 2 ^ s + c) / digitBase)).2) := by ring
          _ = (d * 2 ^ s + c) % digitBase + digitBase
                * (value t * 2 ^ s + (d * 2 ^ s + c) / digitBase) := by rw [ihval]
          _ = ((d * 2 ^ s + c) % digitBase + digitBase * ((d * 2 ^ s + c) / digitBase))
                + digitBase * value t * 2 ^ s := by ring
          _ = (d * 2 ^ s + c) + digitBase * value t * 2 ^ s := by rw [Nat.mod_add_div]
          _ = (d + digitBase * value t) * 2 ^ s + c := by ring
      · rw [wordsLt_cons]
        exact ⟨Nat.mod_lt _ digitBase_pos, ihw⟩

theorem shl_spec (data : List Nat) (s : Nat) (hs : s ≤ 64) (hw : WordsLt data) :
    ∃ l1, shl data s = some l1 ∧ value l1 = value data * 2 ^ s ∧ WordsLt l1
      ∧ (Trimmed data → Trimmed l1) := by
  unfold shl
  rw [if_neg (by simp only [digitBits]; omega)]
  obtain ⟨hval, hw1, hc, hlen⟩ := shlLoop_spec s hs data 0 hw digitBase_pos
  rw [Nat.add_zero] at hval
  refine ⟨_, rfl, ?_, ?_, ?_⟩
  · split
    · next hc0 =>
        rw [value_append, hlen, value_cons, value_nil]
        rw [Nat.mul_zero, Nat.add_zero] at *
        omega
    · next hc0 =>
        have : (shlLoop s data 0).2 = 0 := by omega
        rw [this, Nat.mul_zero, Nat.add_zero] at hval
        exact hval
  · split
    · rw [wordsLt_append]
      refine ⟨hw1, ?_⟩
      intro x hx
      rw [List.mem_singleton] at hx
      rw [hx]; exact hc
    · exact hw1
  · intro ht
    split
    · next hc0 =>
        intro hcon
        rw [List.getLast?_concat] at hcon
        have := Option.some.inj hcon
        omega
    · next hc0 =>
        have hc0' : (shlLoop s data 0).2 = 0 := by omega
        rw [hc0', Nat.mul_zero, Nat.add_zero] at hval
        by_cases hdata : data = []
        · subst hdata
          have hnil : shlLoop s [] 0 = ([], 0) := rfl
          rw [hnil]
          intro hcon; simp at hcon
        · apply trimmed_of_le_value _ hw1
          rw [hval, hlen]
          have hbig := le_value_of_trimmed data hw hdata ht
          have h1 : 1 ≤ 2 ^ s := Nat.one_le_two_pow
          calc digitBase ^ (data.length - 1)
              ≤ value data := hbig
            _ ≤ value data * 2 ^ s := Nat.le_mul_of_pos_right _ (by omega)

theorem shrLoop_spec (s : Nat) (hs : s ≤ 64) :
    ∀ (n : Nat) (data : List Nat) (e : Nat), n ≤ data.length → WordsLt data →
      e < 2 ^ s →
      shrLoop s n data (e * 2 ^ (64 - s))
        = (toDigits n ((e * digitBase ^ n + value (data.take n)) / 2 ^ s)
            ++ data.drop n,
          ((e * digitBase ^ n + value (data.take n)) % 2 ^ s) * 2 ^ (64 - s)) := by
  intro n
  induction n with
  | zero =>
      intro data e _ _ he
      simp only [shrLoop, toDigits, pow_zero, Nat.mul_one, List.take_zero,
        value_nil, Nat.add_zero, List.nil_append, List.drop_zero]
      rw [Nat.mod_eq_of_lt he]
  | succ n ih =>
      intro data e hn hw he
      have hnlt : n < data.length := hn
      have hd : data.getD n 0 < digitBase := by
        rw [List.getD_eq_getElem data 0 hnlt]
        exact hw _ (List.getElem_mem hnlt)
      have hpow : 2 ^ s * 2 ^ (64 - s) = digitBase := by
        rw [← pow_add, digitBase]
        congr 1
        omega
      have hfirst : fuse_digits 0 (data.getD n 0) / 2 ^ s
          = data.getD n 0 * 2 ^ (64 - s) := by
        show (0 + data.getD n 0 * digitBase) / 2 ^ s = _
        rw [Nat.zero_add, ← hpow]
        have hre : data.getD n 0 * (2 ^ s * 2 ^ (64 - s))
            = data.getD n 0 * 2 ^ (64 - s) * 2 ^ s := by ring
        rw [hre, Nat.mul_div_cancel _ (Nat.pos_pow_of_pos _ (by norm_num))]
      have hr : fuse_digits 0 (data.getD n 0) / 2 ^ s
            + e * 2 ^ (64 - s) * digitBase
          = (data.getD n 0 + e * digitBase) * 2 ^ (64 - s) := by
        rw [hfirst]; ring
      have hylt : data.getD n 0 + e * digitBase < 2 ^ s * digitBase := by
        have h1 : e * digitBase ≤ (2 ^ s - 1) * digitBase :=
          Nat.mul_le_mul_right _ (by omega)
        have h2 : (2 ^ s - 1) * digitBase + digitBase = 2 ^ s * digitBase := by
          have he2 : 2 ^ s - 1 + 1 = 2 ^ s := by
            have := Nat.one_le_two_pow (n := s); omega
          calc (2 ^ s - 1) * digitBase + digitBase
              = (2 ^ s - 1 + 1) * digitBase := by ring
            _ = 2 ^ s * digitBase := by rw [he2]
        omega
      have hrdivB : (data.getD n 0 + e * digitBase) * 2 ^ (64 - s) / digitBase
          = (data.getD n 0 + e * digitBase) / 2 ^ s := by
        rw [← hpow]
        rw [Nat.mul_comm (2 ^ s) (2 ^ (64 - s)), Nat.mul_comm _ (2 ^ (64 - s))]
        exact Nat.mul_div_mul_left _ _ (Nat.pos_pow_of_pos _ (by norm_num))
      have hrmodB : (data.getD n 0 + e * digitBase) * 2 ^ (64 - s) % digitBase
          = ((data.getD n 0 + e * digitBase) % 2 ^ s) * 2 ^ (64 - s) := by
        rw [← hpow]
        exact Nat.mul_mod_mul_right ..
      have hw2s : (data.getD n 0 + e * digitBase) / 2 ^ s < digitBase := by
        rw [Nat.div_lt_iff_lt_mul (Nat.pos_pow_of_pos _ (by norm_num))]
        calc data.getD n 0 + e * digitBase < 2 ^ s * digitBase := hylt
          _ = digitBase * 2 ^ s := Nat.mul_comm ..
      have he' : (data.getD n 0 + e * digitBase) % 2 ^ s < 2 ^ s :=
        Nat.mod_lt _ (Nat.pos_pow_of_pos _ (by norm_num))
      have hunf : shrLoop s (n + 1) data (e * 2 ^ (64 - s))
          = shrLoop s n
              (data.set n ((fuse_digits 0 (data.getD n 0) / 2 ^ s
                + e * 2 ^ (64 - s) * digitBase) / digitBase))
              ((fuse_digits 0 (data.getD n 0) / 2 ^ s
                + e * 2 ^ (64 - s) * digitBase) % digitBase) := rfl
      rw [hunf, hr, hrdivB, hrmodB]
      set y := data.getD n 0 + e * digitBase with hy
      set data1 := data.set n (y / 2 ^ s) with hdata1
      have hw1 : WordsLt data1 := by
        intro x hx
        rcases List.mem_or_eq_of_mem_set hx with hmem | heq
        · exact hw x hmem
        · rw [heq]; exact hw2s
      have hlen1 : n ≤ data1.length := by rw [hdata1, List.length_set]; omega
      rw [ih data1 (y % 2 ^ s) hlen1 hw1 he']
      have htake1 : data1.take n = data.take n := take_set ..
      have hdrop1 : data1.drop n = y / 2 ^ s :: data.drop (n + 1) := by
        rw [hdata1]
        exact drop_set_succ data n _ hnlt
      have hvt : value (data.take n) < digitBase ^ n := value_take_lt data n (by omega) hw
      have hX : e * digitBase ^ (n + 1) + value (data.take (n + 1))
          = 2 ^ s * (y / 2 ^ s * digitBase ^ n)
            + (y % 2 ^ s * digitBase ^ n + value (data.take n)) := by
        rw [value_take_succ data n hnlt]
        have hsplit : y = 2 ^ s * (y / 2 ^ s) + y % 2 ^ s :=
          (Nat.div_add_mod ..).symm
        calc e * digitBase ^ (n + 1)
              + (value (data.take n) + digitBase ^ n * data.getD n 0)
            = (data.getD n 0 + e * digitBase) * digitBase ^ n
              + value (data.take n) := by ring
          _ = (2 ^ s * (y / 2 ^ s) + y % 2 ^ s) * digitBase ^ n
              + value (data.take n) := by rw [← hy, ← hsplit]
          _ = 2 ^ s * (y / 2 ^ s * digitBase ^ n)
              + (y % 2 ^ s * digitBase ^ n + value (data.take n)) := by ring
      have hXlt : y % 2 ^ s * digitBase ^ n + value (data.take n)
          < 2 ^ s * digitBase ^ n := by
        have h1 : y % 2 ^ s * digitBase ^ n ≤ (2 ^ s - 1) * digitBase ^ n :=
          Nat.mul_le_mul_right _ (by omega)
        have h2 : (2 ^ s - 1) * digitBase ^ n + digitBase ^ n
            = 2 ^ s * digitBase ^ n := by
          have he2 : 2 ^ s - 1 + 1 = 2 ^ s := by
            have := Nat.one_le_two_pow (n := s); omega
          calc (2 ^ s - 1) * digitBase ^ n + digitBase ^ n
              = (2 ^ s - 1 + 1) * digitBase ^ n := by ring
            _ = 2 ^ s * digitBase ^ n := by rw [he2]
        omega
      have hmod : (e * digitBase ^ (n + 1) + value (data.take (n + 1))) % 2 ^ s
          = (y % 2 ^ s * digitBase ^ n + value (data.take n)) % 2 ^ s := by
        rw [hX, Nat.mul_comm (2 ^ s) (y / 2 ^ s * digitBase ^ n),
          Nat.add_comm (y / 2 ^ s * digitBase ^ n * 2 ^ s),
          Nat.add_mul_mod_self_right]
      have hdivX : (e * digitBase ^ (n + 1) + value (data.take (n + 1))) / 2 ^ s
          = y / 2 ^ s * digitBase ^ n
            + (y % 2 ^ s * digitBase ^ n + value (data.take n)) / 2 ^ s := by
        rw [hX, Nat.mul_add_div (Nat.pos_pow_of_pos _ (by norm_num))]
      have hQlt : (y % 2 ^ s * digitBase ^ n + value (data.take n)) / 2 ^ s
          < digitBase ^ n := by
        rw [Nat.div_lt_iff_lt_mul (Nat.pos_pow_of_pos _ (by norm_num))]
        calc y % 2 ^ s * digitBase ^ n + value (data.take n)
            < 2 ^ s * digitBase ^ n := hXlt
          _ = digitBase ^ n * 2 ^ s := Nat.mul_comm ..
      rw [htake1, hdrop1, hmod, hdivX,
        toDigits_append_top n (y / 2 ^ s) _ hw2s hQlt, List.append_assoc,
        List.singleton_append]

theorem shr_spec (data : List Nat) (s : Nat) (hs : s ≤ 64) (hw : WordsLt data) :
    ∃ p : List Nat × Nat, shr data s = some p
      ∧ value p.1 = value data / 2 ^ s
      ∧ p.2 = value data % 2 ^ s
      ∧ WordsLt p.1
      ∧ (Trimmed data → Trimmed p.1) := by
  unfold shr
  rw [if_neg (by simp only [digitBits]; omega)]
  have h := shrLoop_spec s hs data.length data 0 (le_refl _) hw
    (Nat.pos_pow_of_pos _ (by norm_num))
  rw [Nat.zero_mul] at h
  rw [show digitBits = 64 from rfl, h]
  simp only [Nat.zero_mul, Nat.zero_add, List.take_length, List.drop_length,
    List.append_nil]
  have hVlt : value data / 2 ^ s < digitBase ^ data.length :=
    lt_of_le_of_lt (Nat.div_le_self ..) (value_lt data hw)
  refine ⟨_, rfl, ?_, ?_, ?_, ?_⟩
  · rw [trimOne_value, toDigits_value _ _ hVlt]
  · rcases Nat.eq_zero_or_pos s with hs0 | hs1
    · subst hs0
      simp [Nat.mod_one]
    · have h64 : (64 - s) % 64 = 64 - s := Nat.mod_eq_of_lt (by omega)
      rw [h64, Nat.mul_div_cancel _ (Nat.pos_pow_of_pos _ (by norm_num))]
  · exact trimOne_wordsLt _ (toDigits_wordsLt _ _)
  · intro ht
    apply trimOne_trimmed _ (toDigits_wordsLt _ _)
    rcases le_or_lt data.length 1 with hlen | hlen
    · left; rw [toDigits_length]; exact hlen
    · right
      rw [toDigits_length, toDigits_value _ _ hVlt]
      have hne : data ≠ [] := by
        intro he; rw [he] at hlen; simp at hlen
      have hbig := le_value_of_trimmed data hw hne ht
      have h2s : 2 ^ s ≤ digitBase := two_pow_le_digitBase hs
      have hstep : digitBase ^ (data.length - 2)
          = digitBase ^ (data.length - 1) / digitBase := by
        have he : data.length - 2 + 1 = data.length - 1 := by omega
        rw [← he, pow_succ, Nat.mul_div_cancel _ digitBase_pos]
      rw [hstep]
      calc digitBase ^ (data.length - 1) / digitBase
          ≤ digitBase ^ (data.length - 1) / 2 ^ s :=
            Nat.div_le_div_left h2s (Nat.pos_pow_of_pos _ (by norm_num))
        _ ≤ value data / 2 ^ s := Nat.div_le_div_right hbig

theorem reachable_invariant (l : List Nat) (h : Reachable l) :
    Trimmed l ∧ WordsLt l := by
  induction h with
  | new => exact ⟨by intro hc; simp at hc, wordsLt_nil⟩
  | add l v _ hv ih =>
      exact ⟨add_trimmed l v hv ih.2 ih.1, add_wordsLt l v hv ih.2⟩
  | add_at_place l v p _ hv ih =>
      exact ⟨add_at_place_trimmed l v p hv ih.2 ih.1,
        add_at_place_wordsLt l v p hv ih.2⟩
  | mul l v _ hv hv0 ih =>
      exact ⟨mul_trimmed l v hv hv0 ih.2 ih.1, mul_wordsLt l v hv ih.2⟩
  | div l l1 v r _ hv hdiv ih =>
      have hv0 : 0 < v := by
        rcases Nat.eq_zero_or_pos v with h0 | h0
        · rw [h0] at hdiv
          simp [Accumulator.div] at hdiv
        · exact h0
      obtain ⟨p, hp, hval, hrem, hw, htrim⟩ := div_spec l v hv0 hv ih.2
      rw [hp] at hdiv
      have hpeq := Option.some.inj hdiv
      have hl1 : l1 = p.1 := by rw [hpeq]
      rw [hl1]
      exact ⟨htrim ih.1, hw⟩
  | shl l l1 s _ hshl ih =>
      have hs : s ≤ 64 := by
        by_contra hgt
        rw [Accumulator.shl, if_pos (by simp only [digitBits]; omega)] at hshl
        exact Option.noConfusion hshl
      obtain ⟨l2, hl2, hval, hw, htrim⟩ := shl_spec l s hs ih.2
      rw [hl2] at hshl
      have := Option.some.inj hshl
      rw [← this]
      exact ⟨htrim ih.1, hw⟩
  | shr l l1 s r _ hshr ih =>
      have hs : s ≤ 64 := by
        by_contra hgt
        rw [Accumulator.shr, if_pos (by simp only [digitBits]; omega)] at hshr
        exact Option.noConfusion hshr
      obtain ⟨p, hp, hval, hrem, hw, htrim⟩ := shr_spec l s hs ih.2
      rw [hp] at hshr
      have hpeq := Option.some.inj hshr
      have hl1 : l1 = p.1 := by rw [hpeq]
      rw [hl1]
      exact ⟨htrim ih.1, hw⟩

end Accumulator

/-! ## Lemmas about the field specifications -/

theorem wrapI64_comp_add (a b : Int) : wrapI64 (wrapI64 a + b) = wrapI64 (a + b) := by
  unfold wrapI64
  omega

theorem wrapI64_eq_self (x : Int) (h1 : i64Min ≤ x) (h2 : x ≤ i64Max) :
    wrapI64 x = x := by
  simp only [i64Min, i64Max] at h1 h2
  unfold wrapI64
  omega

theorem u64OfI64_wrapI64 (x : Int) (h1 : 0 ≤ x) (h2 : x < 2 ^ 64) :
    u64OfI64 (wrapI64 x) = x.toNat := by
  unfold u64OfI64 wrapI64
  omega

theorem IntRange.new_valid (min max : Int) (r : IntRange) (hmax : max ≤ i64Max)
    (h : IntRange.new min max = some r) : r.Valid := by
  unfold IntRange.new at h
  by_cases h1 : min < i64Min + 1
  · rw [if_pos h1] at h; exact Option.noConfusion h
  · rw [if_neg h1] at h
    by_cases h2 : min ≥ max
    · rw [if_pos h2] at h; exact Option.noConfusion h
    · rw [if_neg h2] at h
      have := Option.some.inj h
      subst this
      refine ⟨?_, ?_, ?_⟩
      · show i64Min + 1 ≤ min
        omega
      · show min < max
        omega
      · show max ≤ i64Max
        exact hmax

theorem IntRange.permutations_exact (r : IntRange) (hv : r.Valid) :
    r.permutations = (r.max - r.min + 1).toNat := by
  obtain ⟨h1, h2, h3⟩ := hv
  unfold IntRange.permutations
  rw [wrapI64_comp_add]
  apply u64OfI64_wrapI64
  · omega
  · simp only [i64Min, i64Max] at h1 h3
    omega

theorem IntRange.encode_decode_exact (r : IntRange) (hv : r.Valid) (v : Int)
    (h1 : r.min ≤ v) (h2 : v ≤ r.max) :
    r.encode v = .ok (v - r.min).toNat
      ∧ (v - r.min).toNat < r.permutations
      ∧ r.decode ((v - r.min).toNat) = .ok v := by
  obtain ⟨ha, hb, hc⟩ := hv
  have hbound : v - r.min < 2 ^ 64 := by
    simp only [i64Min, i64Max] at ha hc
    omega
  have henc : r.encode v = .ok (v - r.min).toNat := by
    unfold IntRange.encode
    rw [if_neg (by omega)]
    rw [u64OfI64_wrapI64 _ (by omega) hbound]
  have hlt : (v - r.min).toNat < r.permutations := by
    rw [IntRange.permutations_exact r ⟨ha, hb, hc⟩]
    omega
  refine ⟨henc, hlt, ?_⟩
  unfold IntRange.decode
  rw [if_neg (by omega)]
  have hcast : ((v - r.min).toNat : Int) = v - r.min := Int.toNat_of_nonneg (by omega)
  rw [hcast]
  have hs : v - r.min + r.min = v := by ring
  rw [hs, wrapI64_eq_self v (by simp only [i64Min]; simp only [i64Min] at ha; omega)
    (by omega)]

theorem IntRange.permutationsOverflow_false (r : IntRange) (hv : r.Valid)
    (hnarrow : r.max - r.min < i64Max) : r.permutationsOverflow = false := by
  obtain ⟨ha, hb, hc⟩ := hv
  unfold IntRange.permutationsOverflow i64SubOverflows i64AddOverflows
  have hw : wrapI64 (r.max - r.min) = r.max - r.min :=
    wrapI64_eq_self _ (by simp only [i64Min, i64Max] at *; omega) (by omega)
  rw [hw]
  simp only [Bool.or_eq_false_iff, decide_eq_false_iff_not]
  constructor
  · simp only [i64Min, i64Max] at *
    omega
  · simp only [i64Min, i64Max] at *
    omega

theorem IntRange.encodeOverflows_false (r : IntRange) (_hv : r.Valid)
    (hnarrow : r.max - r.min < i64Max) (v : Int) (h1 : r.min ≤ v)
    (h2 : v ≤ r.max) : r.encodeOverflows v = false := by
  unfold IntRange.encodeOverflows i64SubOverflows
  simp only [decide_eq_false_iff_not]
  simp only [i64Min, i64Max] at *
  omega

theorem CharSet.decode_indexOf_exact (s : List Char) (cs : CharSet)
    (_h : CharSet.new s = some cs) (c : Char) (hc : c ∈ cs.charset) :
    cs.encode c = .ok (cs.charset.indexOf c)
      ∧ cs.charset.indexOf c < cs.permutations
      ∧ cs.decode (cs.charset.indexOf c) = .ok c := by
  have hlt : cs.charset.indexOf c < cs.charset.length :=
    List.indexOf_lt_length.mpr hc
  refine ⟨?_, hlt, ?_⟩
  · unfold CharSet.encode
    rw [if_pos hc]
  · unfold CharSet.decode
    rw [dif_pos hlt]
    rw [List.indexOf_get hlt]

/-! ## Lemmas about the sequencer -/

open Accumulator (value WordsLt Trimmed)

theorem compressFixedLoop_ok {T : Type} (spec : DatumSpec T) (P : Nat)
    (hP : P < digitBase) :
    ∀ (values : List T) (cs : List Nat) (acc : List Nat), WordsLt acc →
      List.Forall₂ (fun v c => spec.encode v = .ok c ∧ c < P) values cs →
      ∃ acc1, compressFixedLoop spec P values.length values acc = .ok acc1
        ∧ value acc1 = cs.foldl (fun a c => a * P + c) (value acc)
        ∧ WordsLt acc1 := by
  intro values
  induction values with
  | nil =>
      intro cs acc hw hf
      cases hf
      exact ⟨acc, rfl, rfl, hw⟩
  | cons v vs ih =>
      intro cs acc hw hf
      cases hf with
      | cons hvc hf2 =>
          rename_i c cs2
          have hcB : c < digitBase := lt_trans hvc.2 hP
          have hw1 : WordsLt (Accumulator.add (Accumulator.mul acc P) c) :=
            Accumulator.add_wordsLt _ c hcB (Accumulator.mul_wordsLt acc P hP hw)
          have hval1 : value (Accumulator.add (Accumulator.mul acc P) c)
              = value acc * P + c := by
            rw [Accumulator.add_value _ c hcB (Accumulator.mul_wordsLt acc P hP hw),
              Accumulator.mul_value acc P hP hw]
          obtain ⟨acc1, hrun, hval, hwf⟩ := ih cs2
            (Accumulator.add (Accumulator.mul acc P) c) hw1 hf2
          refine ⟨acc1, ?_, ?_, hwf⟩
          · show compressFixedLoop spec P (vs.length + 1) (v :: vs) acc = .ok acc1
            simp only [compressFixedLoop, hvc.1]
            exact hrun
          · rw [hval, hval1, List.foldl_cons]

theorem compressVariableLoop_ok {T : Type} (spec : DatumSpec T) (R : Nat)
    (hR : R < digitBase) :
    ∀ (values : List T) (cs : List Nat) (acc : List Nat), WordsLt acc →
      List.Forall₂ (fun v c => spec.encode v = .ok c ∧ c + 1 < R) values cs →
      ∃ acc1, compressVariableLoop spec R values acc = .ok acc1
        ∧ value acc1 = cs.foldl (fun a c => a * R + (c + 1)) (value acc)
        ∧ WordsLt acc1 := by
  intro values
  induction values with
  | nil =>
      intro cs acc hw hf
      cases hf
      exact ⟨acc, rfl, rfl, hw⟩
  | cons v vs ih =>
      intro cs acc hw hf
      cases hf with
      | cons hvc hf2 =>
          rename_i c cs2
          have hcB : c + 1 < digitBase := lt_trans hvc.2 hR
          have hmod : (c + 1) % digitBase = c + 1 := Nat.mod_eq_of_lt hcB
          have hw1 : WordsLt (Accumulator.add (Accumulator.mul acc R)
              ((c + 1) % digitBase)) :=
            Accumulator.add_wordsLt _ _ (by rw [hmod]; exact hcB)
              (Accumulator.mul_wordsLt acc R hR hw)
          have hval1 : value (Accumulator.add (Accumulator.mul acc R)
              ((c + 1) % digitBase)) = value acc * R + (c + 1) := by
            rw [Accumulator.add_value _ _ (by rw [hmod]; exact hcB)
              (Accumulator.mul_wordsLt acc R hR hw),
              Accumulator.mul_value acc R hR hw, hmod]
          obtain ⟨acc1, hrun, hval, hwf⟩ := ih cs2 _ hw1 hf2
          refine ⟨acc1, ?_, ?_, hwf⟩
          · show compressVariableLoop spec R (v :: vs) acc = .ok acc1
            simp only [compressVariableLoop, hvc.1]
            exact hrun
          · rw [hval, hval1, List.foldl_cons]

theorem decompressFixedLoop_aux {T : Type} (spec : DatumSpec T) (P : Nat)
    (hP0 : 0 < P) (hPB : P < digitBase) (a0 : Nat) :
    ∀ (rvs : List T) (rcs : List Nat) (acc : List Nat), WordsLt acc →
      List.Forall₂ (fun v c => c < P ∧ spec.decode c = .ok v) rvs rcs →
      value acc = rcs.foldr (fun c a => a * P + c) a0 →
      ∃ acc1, decompressFixedLoop spec P rvs.length acc = .ok (rvs, acc1)
        ∧ value acc1 = a0 ∧ WordsLt acc1 := by
  intro rvs
  induction rvs with
  | nil =>
      intro rcs acc hw hf hval
      cases hf
      exact ⟨acc, rfl, by simpa using hval, hw⟩
  | cons v vs ih =>
      intro rcs acc hw hf hval
      cases hf with
      | cons hvc hf2 =>
          rename_i c cs2
          rw [List.foldr_cons] at hval
          obtain ⟨q, hq, hqval, hqrem, hqw, _⟩ :=
            Accumulator.div_spec acc P hP0 hPB hw
          have hrem : q.2 = c := by
            rw [hqrem, hval, Nat.add_comm, Nat.add_mul_mod_self_right,
              Nat.mod_eq_of_lt hvc.1]
          have hqv : value q.1 = cs2.foldr (fun c a => a * P + c) a0 := by
            rw [hqval, hval, Nat.add_comm, Nat.add_mul_div_right _ _ hP0,
              Nat.div_eq_of_lt hvc.1, Nat.zero_add]
          obtain ⟨acc1, hrun, hv1, hw1⟩ := ih cs2 q.1 hqw hf2 hqv
          refine ⟨acc1, ?_, hv1, hw1⟩
          show decompressFixedLoop spec P (vs.length + 1) acc = .ok (v :: vs, acc1)
          simp only [decompressFixedLoop, hq, hrem, hvc.2, hrun, Except.map]

theorem decompressVariableLoop_aux {T : Type} (spec : DatumSpec T) (R : Nat)
    (hR0 : 0 < R) (hRB : R < digitBase) (a0 : Nat) :
    ∀ (rvs : List T) (rcs : List Nat) (fuel : Nat) (acc : List Nat), WordsLt acc →
      List.Forall₂ (fun v c => c + 1 < R ∧ spec.decode c = .ok v) rvs rcs →
      rvs.length ≤ fuel →
      value acc = rcs.foldr (fun c a => a * R + (c + 1)) (a0 * R) →
      ∃ acc1, decompressVariableLoop spec R fuel acc = .ok (rvs, acc1)
        ∧ value acc1 = (if rvs.length < fuel then a0 else a0 * R)
        ∧ WordsLt acc1 := by
  intro rvs
  induction rvs with
  | nil =>
      intro rcs fuel acc hw hf _ hval
      cases hf
      cases fuel with
      | zero => exact ⟨acc, rfl, by simpa using hval, hw⟩
      | succ f =>
          obtain ⟨q, hq, hqval, hqrem, hqw, _⟩ :=
            Accumulator.div_spec acc R hR0 hRB hw
          have hrem : q.2 = 0 := by
            rw [hqrem, hval]
            simp [Nat.mul_mod_left]
          have hqv : value q.1 = a0 := by
            rw [hqval, hval]
            simp only [List.foldr_nil]
            exact Nat.mul_div_cancel _ hR0
          refine ⟨q.1, ?_, by simp [hqv], hqw⟩
          simp [decompressVariableLoop, hq, hrem]
  | cons v vs ih =>
      intro rcs fuel acc hw hf hfuel hval
      cases hf with
      | cons hvc hf2 =>
          rename_i c cs2
          cases fuel with
          | zero => simp at hfuel
          | succ f =>
              rw [List.foldr_cons] at hval
              obtain ⟨q, hq, hqval, hqrem, hqw, _⟩ :=
                Accumulator.div_spec acc R hR0 hRB hw
              have hrem : q.2 = c + 1 := by
                rw [hqrem, hval, Nat.add_comm, Nat.add_mul_mod_self_right,
                  Nat.mod_eq_of_lt hvc.1]
              have hqv : value q.1 = cs2.foldr (fun c a => a * R + (c + 1)) (a0 * R) := by
                rw [hqval, hval, Nat.add_comm, Nat.add_mul_div_right _ _ hR0,
                  Nat.div_eq_of_lt hvc.1, Nat.zero_add]
              obtain ⟨acc1, hrun, hv1, hw1⟩ :=
                ih cs2 f q.1 hqw hf2 (by simpa using hfuel) hqv
              refine ⟨acc1, ?_, ?_, hw1⟩
              · show decompressVariableLoop spec R (f + 1) acc = .ok (v :: vs, acc1)
                have hsub : c + 1 - 1 = c := by omega
                simp only [decompressVariableLoop, hq, hrem, if_neg (Nat.succ_ne_zero c),
                  hsub, hvc.2, hrun, Except.map]
              · rw [hv1]
                have hiff : vs.length < f ↔ (v :: vs).length < f + 1 := by
                  simp only [List.length_cons]
                  omega
                by_cases hcase : vs.length < f
                · rw [if_pos hcase, if_pos (hiff.mp hcase)]
                · rw [if_neg hcase, if_neg (fun hcon => hcase (hiff.mpr hcon))]

/-! ## The claims -/

/-- C4 counterexample: the state `[1]` is reachable (`new` then `add 1`),
and `mul` by the word zero rewrites it in place to `[0]`, which retains a
most-significant zero word and is a nonempty representation of the value
zero — the trimmed invariant does not survive `mul(0)`. -/
theorem c4_mul_zero_breaks_invariant :
    Accumulator.Reachable [1]
    ∧ Accumulator.mul [1] 0 = [0]
    ∧ ¬ Accumulator.Trimmed [0]
    ∧ Accumulator.value [0] = 0 ∧ ([0] : List Nat) ≠ [] := by
  refine ⟨?_, rfl, ?_, rfl, by decide⟩
  · have h : Accumulator.add [] 1 = [1] := rfl
    rw [← h]
    exact Accumulator.Reachable.add [] 1 Accumulator.Reachable.new (by decide)
  · intro ht
    exact ht rfl

/-- C4 (amended): for every accumulator state reachable from `new` through
`add`, `add_at_place`, `mul` with a nonzero word, `div`, `shl` and `shr`,
the word vector retains no trailing most-significant zero word, and the
empty vector is the unique such representation of the value zero.
(`mul` with the word zero violates the invariant; see the counterexample.) -/
theorem c4_reachable_trimmed (l : List Nat) (h : Accumulator.Reachable l) :
    Accumulator.Trimmed l ∧ Accumulator.WordsLt l
      ∧ (Accumulator.value l = 0 ↔ l = []) := by
  obtain ⟨ht, hw⟩ := Accumulator.reachable_invariant l h
  exact ⟨ht, hw, Accumulator.value_eq_zero_iff l hw ht⟩

theorem c4_reachable_trimmed_witness :
    Accumulator.Trimmed [1] ∧ Accumulator.WordsLt [1]
      ∧ (Accumulator.value [1] = 0 ↔ [1] = []) :=
  c4_reachable_trimmed [1] (by
    have h : Accumulator.add [] 1 = [1] := rfl
    rw [← h]
    exact Accumulator.Reachable.add [] 1 Accumulator.Reachable.new (by decide))

/-- C6: multiplying an accumulator (words below the base) by a single word
computes exactly the product of the represented value — the high-to-low
ordering with `add_at_place(high, index+1)` never corrupts words not yet
processed, and all stored words remain single words. -/
theorem c6_mul_correct (l : List Nat) (v : Nat)
    (hw : Accumulator.WordsLt l) (hv : v < digitBase) :
    Accumulator.value (Accumulator.mul l v) = Accumulator.value l * v
      ∧ Accumulator.WordsLt (Accumulator.mul l v) :=
  ⟨Accumulator.mul_value l v hv hw, Accumulator.mul_wordsLt l v hv hw⟩

theorem c6_mul_correct_witness :
    Accumulator.value (Accumulator.mul [2 ^ 64 - 1, 2 ^ 64 - 1, 2 ^ 64 - 1] (2 ^ 64 - 1))
        = Accumulator.value [2 ^ 64 - 1, 2 ^ 64 - 1, 2 ^ 64 - 1] * (2 ^ 64 - 1)
      ∧ Accumulator.WordsLt
          (Accumulator.mul [2 ^ 64 - 1, 2 ^ 64 - 1, 2 ^ 64 - 1] (2 ^ 64 - 1)) :=
  c6_mul_correct [2 ^ 64 - 1, 2 ^ 64 - 1, 2 ^ 64 - 1] (2 ^ 64 - 1)
    (by decide) (by decide)

/-- C7: dividing an accumulator by a nonzero word returns exactly the
remainder (strictly below the divisor) and leaves exactly the quotient, so
the Euclidean identity holds; dividing by one returns zero and leaves the
value unchanged. -/
theorem c7_div_correct (l : List Nat) (b : Nat) (hw : Accumulator.WordsLt l)
    (hb : 0 < b) (hbB : b < digitBase) :
    ∃ p : List Nat × Nat, Accumulator.div l b = some p
      ∧ Accumulator.value p.1 = Accumulator.value l / b
      ∧ p.2 = Accumulator.value l % b
      ∧ p.2 < b
      ∧ Accumulator.value l = Accumulator.value p.1 * b + p.2
      ∧ (b = 1 → p.2 = 0 ∧ Accumulator.value p.1 = Accumulator.value l) := by
  obtain ⟨p, hp, hval, hrem, hw1, _⟩ := Accumulator.div_spec l b hb hbB hw
  refine ⟨p, hp, hval, hrem, ?_, ?_, ?_⟩
  · rw [hrem]; exact Nat.mod_lt _ hb
  · rw [hval, hrem, Nat.mul_comm]
    exact (Nat.div_add_mod ..).symm
  · intro h1
    subst h1
    exact ⟨by rw [hrem, Nat.mod_one], by rw [hval, Nat.div_one]⟩

theorem c7_div_correct_witness :
    ∃ p : List Nat × Nat, Accumulator.div [255] 2 = some p
      ∧ Accumulator.value p.1 = Accumulator.value [255] / 2
      ∧ p.2 = Accumulator.value [255] % 2
      ∧ p.2 < 2
      ∧ Accumulator.value [255] = Accumulator.value p.1 * 2 + p.2
      ∧ (2 = 1 → p.2 = 0 ∧ Accumulator.value p.1 = Accumulator.value [255]) :=
  c7_div_correct [255] 2 (by decide) (by decide) (by decide)

/-- C8: for any shift amount up to the word bit width, `shl` multiplies the
value by `2^n` and a following `shr` with the same amount restores it,
returning zero (the bits shifted out); in general `shr` divides by `2^n`
and returns exactly the low `n` bits of the value. -/
theorem c8_shift_roundtrip (l : List Nat) (n : Nat)
    (hw : Accumulator.WordsLt l) (hn : n ≤ 64) :
    (∃ l1, Accumulator.shl l n = some l1
      ∧ Accumulator.value l1 = Accumulator.value l * 2 ^ n
      ∧ ∃ p, Accumulator.shr l1 n = some p
          ∧ Accumulator.value p.1 = Accumulator.value l
          ∧ p.2 = 0)
    ∧ (∃ p, Accumulator.shr l n = some p
        ∧ Accumulator.value p.1 = Accumulator.value l / 2 ^ n
        ∧ p.2 = Accumulator.value l % 2 ^ n) := by
  constructor
  · obtain ⟨l1, hl1, hval1, hw1, _⟩ := Accumulator.shl_spec l n hn hw
    obtain ⟨p, hp, hval2, hrem2, _, _⟩ := Accumulator.shr_spec l1 n hn hw1
    refine ⟨l1, hl1, hval1, p, hp, ?_, ?_⟩
    · rw [hval2, hval1,
        Nat.mul_div_cancel _ (Nat.pos_pow_of_pos _ (by norm_num))]
    · rw [hrem2, hval1, Nat.mul_mod_left]
  · obtain ⟨p, hp, hval, hrem, _, _⟩ := Accumulator.shr_spec l n hn hw
    exact ⟨p, hp, hval, hrem⟩

theorem c8_shift_roundtrip_witness :
    (∃ l1, Accumulator.shl [5] 3 = some l1
      ∧ Accumulator.value l1 = Accumulator.value [5] * 2 ^ 3
      ∧ ∃ p, Accumulator.shr l1 3 = some p
          ∧ Accumulator.value p.1 = Accumulator.value [5]
          ∧ p.2 = 0)
    ∧ (∃ p, Accumulator.shr [5] 3 = some p
        ∧ Accumulator.value p.1 = Accumulator.value [5] / 2 ^ 3
        ∧ p.2 = Accumulator.value [5] % 2 ^ 3) :=
  c8_shift_roundtrip [5] 3 (by decide) (by decide)

/-- C9: the guard of `shl` and `shr` rejects exactly shifts above the word
bit width, but the final native shift of `shr`, `carry >> (64 - shift)`,
has an overflowing shift amount exactly when `shift = 0` — a call that the
guard admits.  A debug build panics there (release builds mask the amount),
contradicting the claim that every `shift ≤ 64` completes without a panic
or an overflowing native shift. -/
theorem c9_shr_zero_shift_overflow :
    Accumulator.shrFinalShiftOverflows 0 = true
    ∧ Accumulator.shrFinalShiftOverflows 1 = false
    ∧ Accumulator.shrFinalShiftOverflows 64 = false
    ∧ Accumulator.shl [5] 65 = none
    ∧ Accumulator.shr [5] 65 = none
    ∧ Accumulator.shl [5] 0 = some [5]
    ∧ Accumulator.shl [5] 64 = some [0, 5] := by
  refine ⟨by decide, by decide, by decide, rfl, rfl, rfl, rfl⟩

/-- C2: for `Bool`, valid `IntRange`, and duplicate-free `CharSet`
specifications, every in-domain value encodes to a code strictly below
`permutations()` and decodes back to exactly the original value. -/
theorem c2_field_roundtrip :
    (∀ b : Bool, ∃ c, BoolSpec.encode b = .ok c ∧ c < BoolSpec.permutations
        ∧ BoolSpec.decode c = .ok b)
    ∧ (∀ r : IntRange, r.Valid → ∀ v : Int, r.min ≤ v → v ≤ r.max →
        ∃ c, r.encode v = .ok c ∧ c < r.permutations ∧ r.decode c = .ok v)
    ∧ (∀ (s : List Char) (cs : CharSet), CharSet.new s = some cs →
        ∀ c ∈ cs.charset,
        ∃ n, cs.encode c = .ok n ∧ n < cs.permutations ∧ cs.decode n = .ok c) := by
  refine ⟨?_, ?_, ?_⟩
  · intro b
    cases b
    · exact ⟨0, rfl, by decide, rfl⟩
    · exact ⟨1, rfl, by decide, rfl⟩
  · intro r hv v h1 h2
    obtain ⟨he, hlt, hd⟩ := IntRange.encode_decode_exact r hv v h1 h2
    exact ⟨(v - r.min).toNat, he, hlt, hd⟩
  · intro s cs hnew c hc
    obtain ⟨he, hlt, hd⟩ := CharSet.decode_indexOf_exact s cs hnew c hc
    exact ⟨cs.charset.indexOf c, he, hlt, hd⟩

theorem c2_field_roundtrip_witness :
    (∃ c, BoolSpec.encode true = .ok c ∧ c < BoolSpec.permutations
        ∧ BoolSpec.decode c = .ok true)
    ∧ (∃ c, (IntRange.mk (-10) 10).encode 3 = .ok c
        ∧ c < (IntRange.mk (-10) 10).permutations
        ∧ (IntRange.mk (-10) 10).decode c = .ok 3)
    ∧ (∃ n, (CharSet.mk ['a', 'b', 'c']).encode 'b' = .ok n
        ∧ n < (CharSet.mk ['a', 'b', 'c']).permutations
        ∧ (CharSet.mk ['a', 'b', 'c']).decode n = .ok 'b') :=
  ⟨c2_field_roundtrip.1 true,
   c2_field_roundtrip.2.1 (IntRange.mk (-10) 10) (by decide) 3 (by decide) (by decide),
   c2_field_roundtrip.2.2 ['a', 'b', 'c'] (CharSet.mk ['a', 'b', 'c']) rfl 'b'
     (by decide)⟩

/-- C5 counterexample: for `IntRange::new_full()` the signed intermediate
`max - min` equals `2^64 - 2`, overflowing `i64` (so a debug build panics
inside `permutations()` and `encode`), even though the final `u64` result
`2^64 - 1` is the exact permutation count — refuting the claim that no
intermediate arithmetic overflow occurs, in particular for `new_full`. -/
theorem c5_newfull_intermediate_overflow :
    IntRange.permutationsOverflow IntRange.newFull = true
    ∧ IntRange.encodeOverflows IntRange.newFull i64Max = true
    ∧ IntRange.newFull.permutations = 2 ^ 64 - 1 := by
  refine ⟨by decide, by decide, by decide⟩

/-- C5 (amended): for every valid `IntRange`, `permutations()` and
`encode()` return the exact mathematical values `max - min + 1` and
`v - min` as unsigned words (the two's-complement wrap and the unsigned
reinterpretation compose to the exact result, thanks to the reserved
sentinel); the signed intermediates stay in `i64` only when
`max - min < i64::MAX` — for wider ranges, `new_full()` included, the
intermediate subtraction overflows (panicking under debug assertions). -/
theorem c5_intrange_arithmetic (r : IntRange) (hv : r.Valid) :
    r.permutations = (r.max - r.min + 1).toNat
    ∧ (∀ v : Int, r.min ≤ v → v ≤ r.max → r.encode v = .ok (v - r.min).toNat)
    ∧ (r.max - r.min < i64Max →
        r.permutationsOverflow = false
        ∧ ∀ v : Int, r.min ≤ v → v ≤ r.max → r.encodeOverflows v = false) := by
  refine ⟨IntRange.permutations_exact r hv, ?_, ?_⟩
  · intro v h1 h2
    exact (IntRange.encode_decode_exact r hv v h1 h2).1
  · intro hnarrow
    refine ⟨IntRange.permutationsOverflow_false r hv hnarrow, ?_⟩
    intro v h1 h2
    exact IntRange.encodeOverflows_false r hv hnarrow v h1 h2

theorem c5_intrange_arithmetic_witness :
    (IntRange.mk (-10) 10).permutations = ((10 : Int) - (-10) + 1).toNat
    ∧ (∀ v : Int, (IntRange.mk (-10) 10).min ≤ v → v ≤ (IntRange.mk (-10) 10).max →
        (IntRange.mk (-10) 10).encode v = .ok (v - (IntRange.mk (-10) 10).min).toNat)
    ∧ ((IntRange.mk (-10) 10).max - (IntRange.mk (-10) 10).min < i64Max →
        (IntRange.mk (-10) 10).permutationsOverflow = false
        ∧ ∀ v : Int, (IntRange.mk (-10) 10).min ≤ v →
            v ≤ (IntRange.mk (-10) 10).max →
            (IntRange.mk (-10) 10).encodeOverflows v = false) :=
  c5_intrange_arithmetic (IntRange.mk (-10) 10) (by decide)

/-- C1 counterexample: chaining a Fixed sequence and a Variable sequence
filled exactly to its maximum into one accumulator and decompressing in
reverse order does not return the original lists: the Variable decompress
loop exhausts its iteration budget without consuming the zero terminator,
leaving the accumulator at radix times its pre-compress value, so the
following Fixed decompress recovers `[1]` instead of the original `[7]`. -/
theorem c1_chained_roundtrip_fails :
    compressFixed (IntRange.mk 0 9).spec [7] [] 1 = .ok [7]
    ∧ compressVariable BoolSpec [false] [7] 1 = .ok [64]
    ∧ decompressVariable BoolSpec [64] 1 = .ok ([false], [21])
    ∧ decompressFixed (IntRange.mk 0 9).spec [21] 1 = .ok ([1], [2])
    ∧ ([1] : List Int) ≠ [7] :=
  ⟨rfl, rfl, rfl, rfl, by decide⟩

/-- C1 (amended): for every contract-abiding field specification with at
least one permutation, compressing a list into an accumulator holding any
prior value and decompressing returns exactly the original list, in both
Fixed mode (with the exact length) and Variable mode (provided the radix
`permutations + 1` does not overflow the word); the accumulator is restored
to its pre-compress value after a Fixed decompress always, and after a
Variable decompress whenever the list is strictly shorter than the maximum
(at exactly the maximum the terminator is left unconsumed).  Chaining
follows by composing this statement, which holds for an arbitrary starting
accumulator. -/
theorem c1_sequencer_roundtrip {T : Type} (spec : DatumSpec T) (values : List T)
    (cs : List Nat) (acc : List Nat)
    (hacc : Accumulator.WordsLt acc)
    (hpermB : spec.permutations < digitBase)
    (hperm1 : 1 ≤ spec.permutations)
    (hcontract : List.Forall₂ spec.Encodes values cs) :
    (∃ acc1 acc2,
        compressFixed spec values acc values.length = .ok acc1
        ∧ decompressFixed spec acc1 values.length = .ok (values, acc2)
        ∧ Accumulator.value acc2 = Accumulator.value acc)
    ∧ (spec.permutations + 1 < digitBase →
        ∀ maxN, values.length ≤ maxN →
        ∃ acc1 acc2,
          compressVariable spec values acc maxN = .ok acc1
          ∧ decompressVariable spec acc1 maxN = .ok (values, acc2)
          ∧ (values.length < maxN →
              Accumulator.value acc2 = Accumulator.value acc)) := by
  constructor
  · have hf1 : List.Forall₂
        (fun v c => spec.encode v = .ok c ∧ c < spec.permutations) values cs :=
      hcontract.imp fun _ _ h => ⟨h.1, h.2.1⟩
    obtain ⟨acc1, hrun, hval1, hw1⟩ :=
      compressFixedLoop_ok spec spec.permutations hpermB values cs acc hacc hf1
    have hf2 : List.Forall₂
        (fun v c => c < spec.permutations ∧ spec.decode c = .ok v)
        values.reverse cs.reverse :=
      List.forall₂_reverse_iff.mpr (hcontract.imp fun _ _ h => ⟨h.2.1, h.2.2⟩)
    have hfold : Accumulator.value acc1
        = (cs.reverse).foldr (fun c a => a * spec.permutations + c)
            (Accumulator.value acc) := by
      rw [List.foldr_reverse]
      exact hval1
    obtain ⟨acc2, hrun2, hval2, hw2⟩ :=
      decompressFixedLoop_aux spec spec.permutations (by omega) hpermB
        (Accumulator.value acc) values.reverse cs.reverse acc1 hw1 hf2 hfold
    rw [List.length_reverse] at hrun2
    refine ⟨acc1, acc2, hrun, ?_, hval2⟩
    unfold decompressFixed
    rw [hrun2]
    simp [Except.map]
  · intro hB maxN hmax
    have hmod : (spec.permutations + 1) % digitBase = spec.permutations + 1 :=
      Nat.mod_eq_of_lt hB
    have hf1 : List.Forall₂
        (fun v c => spec.encode v = .ok c ∧ c + 1 < spec.permutations + 1)
        values cs :=
      hcontract.imp fun _ _ h => ⟨h.1, Nat.succ_lt_succ h.2.1⟩
    have hwmul : Accumulator.WordsLt
        (Accumulator.mul acc (spec.permutations + 1)) :=
      Accumulator.mul_wordsLt acc _ hB hacc
    have hvmul : Accumulator.value (Accumulator.mul acc (spec.permutations + 1))
        = Accumulator.value acc * (spec.permutations + 1) :=
      Accumulator.mul_value acc _ hB hacc
    obtain ⟨acc1, hrun, hval1, hw1⟩ :=
      compressVariableLoop_ok spec (spec.permutations + 1) hB values cs
        (Accumulator.mul acc (spec.permutations + 1)) hwmul hf1
    have hcomp : compressVariable spec values acc maxN = .ok acc1 := by
      show (if values.length > maxN then .error acc
        else compressVariableLoop spec ((spec.permutations + 1) % digitBase) values
          (Accumulator.mul acc ((spec.permutations + 1) % digitBase))) = .ok acc1
      rw [if_neg (by omega), hmod]
      exact hrun
    have hf2 : List.Forall₂
        (fun v c => c + 1 < spec.permutations + 1 ∧ spec.decode c = .ok v)
        values.reverse cs.reverse :=
      List.forall₂_reverse_iff.mpr
        (hcontract.imp fun _ _ h => ⟨Nat.succ_lt_succ h.2.1, h.2.2⟩)
    have hfold : Accumulator.value acc1
        = (cs.reverse).foldr (fun c a => a * (spec.permutations + 1) + (c + 1))
            (Accumulator.value acc * (spec.permutations + 1)) := by
      rw [List.foldr_reverse, hval1, hvmul]
    obtain ⟨acc2, hrun2, hval2, hw2⟩ :=
      decompressVariableLoop_aux spec (spec.permutations + 1) (by omega) hB
        (Accumulator.value acc) values.reverse cs.reverse maxN acc1 hw1 hf2
        (by rw [List.length_reverse]; exact hmax) hfold
    rw [List.length_reverse] at hval2
    refine ⟨acc1, acc2, hcomp, ?_, ?_⟩
    · show Except.map (fun q => (q.1.reverse, q.2))
        (decompressVariableLoop spec ((spec.permutations + 1) % digitBase) maxN acc1)
          = .ok (values, acc2)
      rw [hmod, hrun2]
      simp [Except.map]
    · intro hlt
      rw [hval2, if_pos hlt]

theorem c1_sequencer_roundtrip_witness :
    (∃ acc1 acc2,
        compressFixed BoolSpec [true, false] [5] ([true, false].length) = .ok acc1
        ∧ decompressFixed BoolSpec acc1 ([true, false].length) = .ok ([true, false], acc2)
        ∧ Accumulator.value acc2 = Accumulator.value [5])
    ∧ (BoolSpec.permutations + 1 < digitBase →
        ∀ maxN, [true, false].length ≤ maxN →
        ∃ acc1 acc2,
          compressVariable BoolSpec [true, false] [5] maxN = .ok acc1
          ∧ decompressVariable BoolSpec acc1 maxN = .ok ([true, false], acc2)
          ∧ ([true, false].length < maxN →
              Accumulator.value acc2 = Accumulator.value [5])) :=
  c1_sequencer_roundtrip BoolSpec [true, false] [1, 0] [5] (by decide) (by decide)
    (by decide)
    (List.Forall₂.cons ⟨rfl, by decide, rfl⟩
      (List.Forall₂.cons ⟨rfl, by decide, rfl⟩ List.Forall₂.nil))

/-- C3 counterexample: on the Bool specification with the single value
`[false]` and an empty accumulator, the source's `compress_variable`
(terminator multiply before the loop) produces the accumulator value 1,
whereas the claim's order (terminator multiply after the loop) would
produce 3 — the terminator multiply happens before the loop, not after. -/
theorem c3_terminator_order_counterexample :
    compressVariable BoolSpec [false] [] 1 = .ok [1]
    ∧ compressVariableSpecOrder BoolSpec [false] [] 1 = .ok [3]
    ∧ ([1] : List Nat) ≠ [3] :=
  ⟨rfl, rfl, by decide⟩

/-- C3 (amended): Variable-mode compress performs one `mul(radix)` writing
the implicit zero terminator **before** the per-value loop, then for each
value in order `mul(radix)` followed by `add(encode(value)+1)`: the final
accumulator value is the Horner evaluation seeded with the old value times
the radix. -/
theorem c3_variable_terminator_first {T : Type} (spec : DatumSpec T)
    (values : List T) (cs : List Nat) (acc : List Nat) (maxN : Nat)
    (hacc : Accumulator.WordsLt acc)
    (hB : spec.permutations + 1 < digitBase)
    (hf : List.Forall₂
      (fun v c => spec.encode v = .ok c ∧ c < spec.permutations) values cs)
    (hlen : values.length ≤ maxN) :
    ∃ acc1, compressVariable spec values acc maxN = .ok acc1
      ∧ Accumulator.value acc1
          = cs.foldl (fun a c => a * (spec.permutations + 1) + (c + 1))
              (Accumulator.value acc * (spec.permutations + 1)) := by
  have hmod : (spec.permutations + 1) % digitBase = spec.permutations + 1 :=
    Nat.mod_eq_of_lt hB
  have hf1 : List.Forall₂
      (fun v c => spec.encode v = .ok c ∧ c + 1 < spec.permutations + 1)
      values cs :=
    hf.imp fun _ _ h => ⟨h.1, Nat.succ_lt_succ h.2⟩
  have hwmul : Accumulator.WordsLt
      (Accumulator.mul acc (spec.permutations + 1)) :=
    Accumulator.mul_wordsLt acc _ hB hacc
  have hvmul : Accumulator.value (Accumulator.mul acc (spec.permutations + 1))
      = Accumulator.value acc * (spec.permutations + 1) :=
    Accumulator.mul_value acc _ hB hacc
  obtain ⟨acc1, hrun, hval1, hw1⟩ :=
    compressVariableLoop_ok spec (spec.permutations + 1) hB values cs
      (Accumulator.mul acc (spec.permutations + 1)) hwmul hf1
  refine ⟨acc1, ?_, ?_⟩
  · show (if values.length > maxN then .error acc
      else compressVariableLoop spec ((spec.permutations + 1) % digitBase) values
        (Accumulator.mul acc ((spec.permutations + 1) % digitBase))) = .ok acc1
    rw [if_neg (by omega), hmod]
    exact hrun
  · rw [hval1, hvmul]

theorem c3_variable_terminator_first_witness :
    ∃ acc1, compressVariable BoolSpec [false] [5] 1 = .ok acc1
      ∧ Accumulator.value acc1
          = [0].foldl (fun a c => a * (BoolSpec.permutations + 1) + (c + 1))
              (Accumulator.value [5] * (BoolSpec.permutations + 1)) :=
  c3_variable_terminator_first BoolSpec [false] [0] [5] 1 (by decide) (by decide)
    (List.Forall₂.cons ⟨rfl, by decide⟩ List.Forall₂.nil) (by decide)

/-- C10: a domain error from the field specification during compression or
decompression is not returned to the caller as a typed failure: in both the
Fixed and the Variable length modes the `unwrap` aborts fatally, and the
accumulator is left partially mutated — after compressing every value
before the failing one (plus the `mul` of the failing iteration, which runs
before the failing `encode`, and in Variable mode also the leading
terminator `mul`), or, in decompression, after the `div` whose remainder
fails to decode. -/
theorem c10_unwrap_aborts {T : Type} (spec : DatumSpec T) :
    (∀ (pre : List T) (prec : List Nat) (v : T) (rest : List T) (acc : List Nat)
        (msg : String),
      List.Forall₂ (fun u c => spec.encode u = .ok c) pre prec →
      spec.encode v = .error msg →
      Sequencer.compress ⟨spec, .Fixed (pre ++ v :: rest).length⟩
          (pre ++ v :: rest) acc
        = .error (Accumulator.mul
            (prec.foldl
              (fun a c => Accumulator.add (Accumulator.mul a spec.permutations) c)
              acc)
            spec.permutations))
    ∧ (∀ (pre : List T) (prec : List Nat) (v : T) (rest : List T) (acc : List Nat)
        (msg : String) (maxN : Nat),
      List.Forall₂ (fun u c => spec.encode u = .ok c) pre prec →
      spec.encode v = .error msg →
      (pre ++ v :: rest).length ≤ maxN →
      Sequencer.compress ⟨spec, .Variable maxN⟩ (pre ++ v :: rest) acc
        = .error (Accumulator.mul
            (prec.foldl
              (fun a c => Accumulator.add
                (Accumulator.mul a ((spec.permutations + 1) % digitBase))
                ((c + 1) % digitBase))
              (Accumulator.mul acc ((spec.permutations + 1) % digitBase)))
            ((spec.permutations + 1) % digitBase)))
    ∧ (∀ (n : Nat) (acc : List Nat) (p : List Nat × Nat) (msg : String),
        Accumulator.div acc spec.permutations = some p →
        spec.decode p.2 = .error msg →
        Sequencer.decompress ⟨spec, .Fixed (n + 1)⟩ acc = .error p.1)
    ∧ (∀ (n : Nat) (acc : List Nat) (p : List Nat × Nat) (msg : String),
        Accumulator.div acc ((spec.permutations + 1) % digitBase) = some p →
        p.2 ≠ 0 →
        spec.decode (p.2 - 1) = .error msg →
        Sequencer.decompress ⟨spec, .Variable (n + 1)⟩ acc = .error p.1) := by
  refine ⟨?_, ?_, ?_, ?_⟩
  · intro pre prec v rest acc msg hpre henc
    show compressFixedLoop spec spec.permutations (pre ++ v :: rest).length
        (pre ++ v :: rest) acc = _
    induction hpre generalizing acc with
    | nil =>
        show compressFixedLoop spec spec.permutations ((v :: rest).length)
          (v :: rest) acc = _
        simp only [List.length_cons, compressFixedLoop, henc, List.foldl_nil]
    | cons hu hrest ih =>
        rename_i u c us cs2
        show compressFixedLoop spec spec.permutations
          ((u :: (us ++ v :: rest)).length) (u :: (us ++ v :: rest)) acc = _
        simp only [List.length_cons, compressFixedLoop, hu, List.foldl_cons]
        exact ih _
  · intro pre prec v rest acc msg maxN hpre henc hlen
    have hloop : ∀ (l : List T) (cs : List Nat),
        List.Forall₂ (fun u c => spec.encode u = .ok c) l cs →
        ∀ (a0 : List Nat),
        compressVariableLoop spec ((spec.permutations + 1) % digitBase)
            (l ++ v :: rest) a0
          = .error (Accumulator.mul
              (cs.foldl
                (fun a c => Accumulator.add
                  (Accumulator.mul a ((spec.permutations + 1) % digitBase))
                  ((c + 1) % digitBase)) a0)
              ((spec.permutations + 1) % digitBase)) := by
      intro l cs hf
      induction hf with
      | nil =>
          intro a0
          show compressVariableLoop spec ((spec.permutations + 1) % digitBase)
            (v :: rest) a0 = _
          simp only [compressVariableLoop, henc, List.foldl_nil]
      | cons hu hrest ih =>
          intro a0
          rename_i u c us cs2
          show compressVariableLoop spec ((spec.permutations + 1) % digitBase)
            (u :: (us ++ v :: rest)) a0 = _
          simp only [compressVariableLoop, hu, List.foldl_cons]
          exact ih _
    show compressVariable spec (pre ++ v :: rest) acc maxN = _
    show (if (pre ++ v :: rest).length > maxN then .error acc
      else compressVariableLoop spec ((spec.permutations + 1) % digitBase)
        (pre ++ v :: rest)
        (Accumulator.mul acc ((spec.permutations + 1) % digitBase))) = _
    rw [if_neg (by omega)]
    exact hloop pre prec hpre _
  · intro n acc p msg hdiv hdec
    have hl : decompressFixedLoop spec spec.permutations (n + 1) acc
        = .error p.1 := by
      simp only [decompressFixedLoop, hdiv, hdec]
    show Except.map (fun q => (q.1.reverse, q.2))
        (decompressFixedLoop spec spec.permutations (n + 1) acc)
      = .error p.1
    rw [hl]
    rfl
  · intro n acc p msg hdiv hne hdec
    have hl : decompressVariableLoop spec ((spec.permutations + 1) % digitBase)
        (n + 1) acc = .error p.1 := by
      simp only [decompressVariableLoop, hdiv, if_neg hne, hdec]
    show Except.map (fun q => (q.1.reverse, q.2))
        (decompressVariableLoop spec ((spec.permutations + 1) % digitBase)
          (n + 1) acc)
      = .error p.1
    rw [hl]
    rfl

theorem c10_unwrap_aborts_witness :
    (Sequencer.compress ⟨(IntRange.mk (-10) 10).spec,
        .Fixed (([0] ++ 11 :: []).length)⟩ ([0] ++ 11 :: []) []
      = .error (Accumulator.mul
          ([10].foldl
            (fun a c => Accumulator.add
              (Accumulator.mul a (IntRange.mk (-10) 10).spec.permutations) c)
            [])
          (IntRange.mk (-10) 10).spec.permutations))
    ∧ (Sequencer.compress ⟨(IntRange.mk (-10) 10).spec, .Variable 5⟩
        ([0] ++ 11 :: []) []
      = .error (Accumulator.mul
          ([10].foldl
            (fun a c => Accumulator.add
              (Accumulator.mul a
                (((IntRange.mk (-10) 10).spec.permutations + 1) % digitBase))
              ((c + 1) % digitBase))
            (Accumulator.mul []
              (((IntRange.mk (-10) 10).spec.permutations + 1) % digitBase)))
          (((IntRange.mk (-10) 10).spec.permutations + 1) % digitBase)))
    ∧ Sequencer.decompress ⟨decodeFailSpec, .Fixed (0 + 1)⟩ [3]
        = .error ([] : List Nat)
    ∧ Sequencer.decompress ⟨decodeFailSpec, .Variable (0 + 1)⟩ [3]
        = .error ([] : List Nat) :=
  ⟨(c10_unwrap_aborts (IntRange.mk (-10) 10).spec).1 [0] [10] 11 [] []
      "Value to encode is outside allowed range"
      (List.Forall₂.cons rfl List.Forall₂.nil) rfl,
   (c10_unwrap_aborts (IntRange.mk (-10) 10).spec).2.1 [0] [10] 11 [] []
      "Value to encode is outside allowed range" 5
      (List.Forall₂.cons rfl List.Forall₂.nil) rfl (by decide),
   (c10_unwrap_aborts decodeFailSpec).2.2.1 0 [3] ([], 3) "domain error" rfl rfl,
   (c10_unwrap_aborts decodeFailSpec).2.2.2 0 [3] ([], 3) "domain error" rfl
      (by decide) rfl⟩
